import Mathlib

/-!
Shallow embedding of the translation pipeline (`translation_pipeline.py`).

The pipeline is a bidirectional word-level translator between L1 ("pt")
and L2 ("em"): normalization, index construction from a raw resource
bundle, light spelling correction via Levenshtein distance, per-token
lookup, heuristic direction detection, and sentence reconstruction.

Python dictionaries are modelled as association lists (`List (String × α)`)
with Python dict semantics: unique keys, insertion order preserved,
assignment to an existing key keeps its position, assignment to a fresh
key appends at the end.

The Unicode operations used by the source (`str.lower`, `str.upper`,
`unicodedata.normalize("NFD", ·)`, category test `Mn`) belong to the
Python standard library, not to this repository; they are abstracted as
a `UnicodeModel` parameter (per-code-point lowering/uppering/decomposition
and a combining-mark test).  All pipeline definitions are parametric in
this model; concrete claims are evaluated at an ASCII instantiation.
-/

set_option maxHeartbeats 1000000

/-- Abstraction of the Unicode operations the source imports from the
Python standard library: per-code-point full lower/upper case mappings,
per-code-point full canonical decomposition (NFD), and the test for
category Mn (nonspacing combining mark). -/
structure UnicodeModel where
  lowerChar : Char → List Char
  upperChar : Char → List Char
  nfdChar : Char → List Char
  isMn : Char → Bool

/-- Python `s.strip()`: drop leading and trailing whitespace. -/
def pyStrip (s : String) : String :=
  ⟨((s.data.dropWhile Char.isWhitespace).reverse.dropWhile
      Char.isWhitespace).reverse⟩

/-- Python `s.lower()`: concatenation of the per-code-point lowercase
mappings. -/
def pyLowerStr (U : UnicodeModel) (s : String) : String :=
  ⟨s.data.flatMap U.lowerChar⟩

/-- Source `_normalize_pt`: lower-case, decompose (NFD), then drop all
code points of category Mn. -/
def _normalize_pt (U : UnicodeModel) (s : String) : String :=
  ⟨((s.data.flatMap U.lowerChar).flatMap U.nfdChar).filter (fun c => !U.isMn c)⟩

/-- The six punctuation marks recognised by the tokenizer regexes. -/
def isPunctChar (c : Char) : Bool :=
  c = '.' || c = ',' || c = '!' || c = '?' || c = ';' || c = ':'

/-- Source `_is_punctuation`: full match of `[.,!?;:]+` (one or more). -/
def _is_punctuation (tok : String) : Bool :=
  !tok.data.isEmpty && tok.data.all isPunctChar

/-- A raw JSON value found in a lexicon / pronoun form list: either a
string, or some non-string value (which the source skips with its
`isinstance(v, str)` checks). -/
inductive RawVal where
  | str (s : String)
  | nonstr
deriving DecidableEq

/-- Raw resource bundle obtained from the external resource provider
(`EmakuaResources` in `supabase_client_strict.py`).  The `grammar` field
is opaque and unused by the pipeline, so it is not modelled. -/
structure EmakuaResources where
  lexicon : List (String × List RawVal)
  pronouns_personal : List (String × List RawVal)
  pronouns_possessive : List (String × List RawVal)
deriving DecidableEq

/-- Python `d[k]` as an option (also models `k in d` via `isSome`). -/
def dget {α : Type} (m : List (String × α)) (k : String) : Option α :=
  (m.find? (fun p => decide (p.1 = k))).map (fun p => p.2)

/-- Python `d[k]` where the caller knows `k` is present (a `KeyError`
is modelled by the junk value `""`). -/
def pyGet (m : List (String × String)) (k : String) : String :=
  (dget m k).getD ""

/-- Python `d[k] = f(d.get(k))`-style update: an existing key keeps its
position and gets value `f (some old)`; a fresh key is appended with
value `f none`. -/
def dupdate {α : Type} (m : List (String × α)) (k : String) (f : Option α → α) :
    List (String × α) :=
  if m.any (fun p => decide (p.1 = k)) then
    m.map (fun p => if p.1 = k then (p.1, f (some p.2)) else p)
  else
    m ++ [(k, f none)]

/-- Replace the value stored at key `k` (no-op if `k` is absent). -/
def dset {α : Type} (m : List (String × α)) (k : String) (v : α) :
    List (String × α) :=
  m.map (fun p => if p.1 = k then (p.1, v) else p)

/-- Python `{**a, **b}`: entries of `a` in order (with values overridden
by `b` on shared keys), then entries of `b` whose keys are new. -/
def dictMerge {α : Type} (a b : List (String × α)) : List (String × α) :=
  a.map (fun p =>
    match b.find? (fun q => decide (q.1 = p.1)) with
    | some q => (p.1, q.2)
    | none => p) ++
  b.filter (fun q => !a.any (fun p => decide (p.1 = q.1)))

/-- The `if c not in target: target.append(c)` loop of the source,
appending each element of `l` to `start` unless already present. -/
def dedupInto (start : List String) (l : List String) : List String :=
  l.foldl (fun acc v => if v ∈ acc then acc else acc ++ [v]) start

/-- Cleaning of a raw lexicon value list: keep strings only, strip each,
drop blanks (source lines 64–71). -/
def cleanVals (vals : List RawVal) : List String :=
  vals.filterMap (fun v =>
    match v with
    | .str s => if (pyStrip s) = "" then none else some (pyStrip s)
    | .nonstr => none)

/-- The five derived index structures returned by `_build_indexes`. -/
structure Indexes where
  lexicon_pt : List (String × List String)
  pronoun_pt : List (String × List String)
  spell_vocab_pt : List (String × String)
  lexicon_em : List (String × List String)
  pronoun_em : List (String × List String)
deriving DecidableEq

/-- Processing of one raw lexicon entry inside `_build_indexes`
(source lines 59–88). -/
def procLexEntry (U : UnicodeModel) (S : Indexes) (e : String × List RawVal) :
    Indexes :=
  let pt_word := e.1
  let norm_pt := _normalize_pt U pt_word
  let S :=
    if (dget S.spell_vocab_pt norm_pt).isSome then S
    else { S with spell_vocab_pt := S.spell_vocab_pt ++ [(norm_pt, pt_word)] }
  let cleaned := cleanVals e.2
  if cleaned = [] then S
  else
    let S := { S with
      lexicon_pt := dupdate S.lexicon_pt norm_pt
        (fun cur => dedupInto (cur.getD []) cleaned) }
    { S with
      lexicon_em := cleaned.foldl (fun m em_form =>
        let em_key := pyLowerStr U (pyStrip em_form)
        if em_key = "" then m
        else dupdate m em_key (fun cur =>
          let t := cur.getD []
          if pt_word ∈ t then t else t ++ [pt_word])) S.lexicon_em }

/-- Processing of one merged pronoun entry inside `_build_indexes`
(source lines 93–111). -/
def procPronEntry (U : UnicodeModel) (S : Indexes) (e : String × List RawVal) :
    Indexes :=
  let pt_pron := e.1
  let norm_pt := _normalize_pt U pt_pron
  let em_forms : List String := e.2.filterMap (fun v =>
    match v with
    | .str s => some (pyStrip s)
    | .nonstr => none)
  if em_forms = [] then S
  else
    let S := { S with pronoun_pt := dupdate S.pronoun_pt norm_pt (fun _ => em_forms) }
    let S :=
      if (dget S.spell_vocab_pt norm_pt).isSome then S
      else { S with spell_vocab_pt := S.spell_vocab_pt ++ [(norm_pt, pt_pron)] }
    { S with
      pronoun_em := em_forms.foldl (fun m em_form =>
        let em_key := pyLowerStr U (pyStrip em_form)
        if em_key = "" then m
        else dupdate m em_key (fun cur =>
          let t := cur.getD []
          if pt_pron ∈ t then t else t ++ [pt_pron])) S.pronoun_em }

/-- Source `_build_indexes`: derive the five lookup structures from a
raw resource bundle. -/
def _build_indexes (U : UnicodeModel) (resources : EmakuaResources) : Indexes :=
  let S0 : Indexes := ⟨[], [], [], [], []⟩
  let S1 := resources.lexicon.foldl (procLexEntry U) S0
  (dictMerge resources.pronouns_personal resources.pronouns_possessive).foldl
    (procPronEntry U) S1

/-! ### Levenshtein distance

`lev` is the textbook recursion; `_levenshtein` is the source's
dynamic-programming implementation (rows over `b`, outer loop over `a`),
including its early returns. -/

/-- Textbook Levenshtein recursion over code-point lists, unit costs. -/
def lev : List Char → List Char → Nat
  | [], ys => ys.length
  | _ :: xs, [] => xs.length + 1
  | x :: xs, y :: ys =>
    min (lev xs (y :: ys) + 1)
      (min (lev (x :: xs) ys + 1) (lev xs ys + (if x = y then 0 else 1)))
termination_by xs ys => (xs.length, ys.length)

/-- Inner loop of the source DP (`for j, cb in enumerate(b, 1)`),
walking the previous row: `prevTail` holds `prev[j:]`, `pdiag` holds
`prev[j-1]`, `left` holds `cur[j-1]`. -/
def levInner (ca : Char) : List Char → List Nat → Nat → Nat → List Nat
  | [], _, _, _ => []
  | cb :: bs, prevTail, pdiag, left =>
    match prevTail with
    | [] => []
    | pj :: prest =>
      let cost := if ca = cb then 0 else 1
      let v := min (pj + 1) (min (left + 1) (pdiag + cost))
      v :: levInner ca bs prest pj v

/-- Outer loop of the source DP (`for i, ca in enumerate(a, 1)`). -/
def levOuter (b : List Char) : List Char → List Nat → Nat → List Nat
  | [], prev, _ => prev
  | ca :: as_, prev, i =>
    match prev with
    | [] => []
    | p0 :: prest => levOuter b as_ (i :: levInner ca b prest p0 i) (i + 1)

/-- Source `_levenshtein`: early returns for equal / empty inputs, then
the row DP; `prev[-1]` is the result. -/
def _levenshtein (a b : String) : Nat :=
  if a = b then 0
  else if a.data = [] then b.length
  else if b.data = [] then a.length
  else
    (levOuter b.data a.data (List.range (b.data.length + 1)) 1).getLastD 0

/-- Source `correct_spelling_pt`'s best-match scan: track the minimum
distance and the first key attaining it (strict `<` keeps the earlier
key on ties); `none` models the `best_key is None / math.inf` start. -/
def bestFold (norm : String) (l : List (String × String))
    (acc : Option (String × Nat)) : Option (String × Nat) :=
  l.foldl (fun acc p =>
    let d := _levenshtein norm p.1
    match acc with
    | none => some (p.1, d)
    | some q => if d < q.2 then some (p.1, d) else some q) acc

/-- Source `correct_spelling_pt`: exact normalized match wins; otherwise
the nearest vocabulary key is accepted under a length-dependent
threshold, else the lower-cased input is returned. -/
def correct_spelling_pt (U : UnicodeModel) (word : String)
    (spell_vocab_pt : List (String × String)) : String :=
  let norm := _normalize_pt U word
  match dget spell_vocab_pt norm with
  | some canon => canon
  | none =>
    match bestFold norm spell_vocab_pt none with
    | none => pyLowerStr U word
    | some q =>
      let max_allowed := if norm.length ≤ 5 then 2 else 3
      if q.2 ≤ max_allowed then pyGet spell_vocab_pt q.1
      else pyLowerStr U word

/-- Result shape of the two lookup functions. -/
structure LookupResult where
  source : String
  normalized : String
  candidates : List String
  found : Bool
deriving DecidableEq

/-- Source `lookup_pt_to_em` (the optional missing-word log is purely
observational and not modelled). -/
def lookup_pt_to_em (U : UnicodeModel) (word : String)
    (lexicon_pt pronoun_pt : List (String × List String))
    (spell_vocab_pt : List (String × String)) : LookupResult :=
  let corrected := correct_spelling_pt U word spell_vocab_pt
  let norm := _normalize_pt U corrected
  let em_candidates := (dget pronoun_pt norm).getD []
  let em_candidates := dedupInto em_candidates ((dget lexicon_pt norm).getD [])
  let em_candidates :=
    if em_candidates.length > 4 then em_candidates.take 4 else em_candidates
  { source := word, normalized := norm, candidates := em_candidates,
    found := !em_candidates.isEmpty }

/-- Source `lookup_em_to_pt` (no spelling correction on the L2 side). -/
def lookup_em_to_pt (U : UnicodeModel) (word : String)
    (lexicon_em pronoun_em : List (String × List String)) : LookupResult :=
  let key := pyLowerStr U (pyStrip word)
  let pt_candidates := (dget pronoun_em key).getD []
  let pt_candidates := dedupInto pt_candidates ((dget lexicon_em key).getD [])
  let pt_candidates :=
    if pt_candidates.length > 4 then pt_candidates.take 4 else pt_candidates
  { source := word, normalized := key, candidates := pt_candidates,
    found := !pt_candidates.isEmpty }

/-- Python `str.split()`: split on whitespace runs, dropping empties
(`acc` accumulates the current word reversed). -/
def pySplitAux : List Char → List Char → List String
  | [], acc => if acc = [] then [] else [⟨acc.reverse⟩]
  | c :: cs, acc =>
    if c.isWhitespace then
      if acc = [] then pySplitAux cs [] else ⟨acc.reverse⟩ :: pySplitAux cs []
    else pySplitAux cs (c :: acc)

/-- Source `_tokenize`'s `re.sub(r"([.,!?;:])", r" \1 ", text)`. -/
def padPunct (l : List Char) : List Char :=
  l.flatMap (fun c => if isPunctChar c then [' ', c, ' '] else [c])

/-- Source `_tokenize`: strip, pad punctuation with spaces, split on
whitespace. -/
def _tokenize (text : String) : List String :=
  pySplitAux (padPunct (pyStrip text).data) []

/-- Source `re.sub(r"\s+([.,!?;:])", r"\1", sentence)`: drop every
whitespace character whose run is immediately followed by one of the
six punctuation marks. -/
def stripWsBeforePunct (l : List Char) : List Char :=
  l.foldr (fun c acc =>
    if c.isWhitespace &&
        (match acc with | p :: _ => isPunctChar p | [] => false) then acc
    else c :: acc) []

/-- Python `sentence[0].upper() + sentence[1:]` guarded by
`if sentence:`. -/
def capFirst (U : UnicodeModel) (s : String) : String :=
  match s.data with
  | [] => s
  | c :: cs => ⟨U.upperChar c ++ cs⟩

/-- The per-token lookup dispatch used by the sentence builder
(`if direction == "pt_to_em" ... else ...`). -/
def lookupFor (U : UnicodeModel) (direction : String) (I : Indexes)
    (tok : String) : LookupResult :=
  if direction = "pt_to_em" then
    lookup_pt_to_em U tok I.lexicon_pt I.pronoun_pt I.spell_vocab_pt
  else
    lookup_em_to_pt U tok I.lexicon_em I.pronoun_em

/-- Source `_build_sentence_from_lookup`: single-word special case
(up to 4 candidates joined by `", "`), otherwise first-candidate
replacement, verbatim punctuation, single-space join, space removal
before punctuation, and capitalization of the first character. -/
def _build_sentence_from_lookup (U : UnicodeModel) (tokens : List String)
    (direction : String) (I : Indexes) : String :=
  if tokens.length = 1 && !_is_punctuation (tokens.headD "") then
    let tok := tokens.headD ""
    let info := lookupFor U direction I tok
    let candidates := info.candidates.take 4
    if !candidates.isEmpty then
      capFirst U (String.intercalate ", " candidates)
    else tok
  else
    let out_tokens := tokens.map (fun tok =>
      if _is_punctuation tok then tok
      else
        let info := lookupFor U direction I tok
        match info.candidates with
        | [] => tok
        | c :: _ => c)
    let sentence := String.intercalate " " out_tokens
    let sentence : String := ⟨stripWsBeforePunct sentence.data⟩
    capFirst U sentence

/-- Source `_count_known_tokens`: how many non-punctuation tokens are
present (without spelling correction) in the L1 indexes, and how many
in the L2 indexes. -/
def _count_known_tokens (U : UnicodeModel) (tokens : List String)
    (lexicon_pt pronoun_pt lexicon_em pronoun_em : List (String × List String)) :
    Nat × Nat :=
  tokens.foldl (fun acc tok =>
    if _is_punctuation tok then acc
    else
      let norm_pt := _normalize_pt U tok
      let em_key := pyLowerStr U (pyStrip tok)
      let acc :=
        if (dget lexicon_pt norm_pt).isSome || (dget pronoun_pt norm_pt).isSome
        then (acc.1 + 1, acc.2) else acc
      if (dget lexicon_em em_key).isSome || (dget pronoun_em em_key).isSome
      then (acc.1, acc.2 + 1) else acc) (0, 0)

/-- Source `_detect_direction`: `em_to_pt` when strictly more tokens look
L2 than L1, else `pt_to_em`. -/
def _detect_direction (U : UnicodeModel) (tokens : List String)
    (lexicon_pt pronoun_pt lexicon_em pronoun_em : List (String × List String)) :
    String :=
  let c := _count_known_tokens U tokens lexicon_pt pronoun_pt lexicon_em pronoun_em
  if c.2 > c.1 then "em_to_pt" else "pt_to_em"

/-- Source `translate`: the external resource provider is modelled as an
`Option EmakuaResources` (`none` = `ResourceUnavailable`); the result is
the translation (`none` = the provider failure propagates) paired with
the number of provider calls performed. -/
def translateRun (U : UnicodeModel) (text direction : String)
    (provider : Option EmakuaResources) : Option String × Nat :=
  let text := pyStrip text
  if text = "" then (some "", 0)
  else
    match provider with
    | none => (none, 1)
    | some resources =>
      let I := _build_indexes U resources
      let tokens := _tokenize text
      if direction = "pt_to_em" then
        (some (_build_sentence_from_lookup U tokens "pt_to_em" I), 1)
      else if direction = "em_to_pt" then
        (some (_build_sentence_from_lookup U tokens "em_to_pt" I), 1)
      else
        let auto_dir :=
          _detect_direction U tokens I.lexicon_pt I.pronoun_pt I.lexicon_em I.pronoun_em
        (some (_build_sentence_from_lookup U tokens auto_dir I), 1)

/-! ### Concrete instantiations used by the claims -/

/-- ASCII instantiation of the Unicode operations: one-to-one case
mapping, trivial decomposition, no combining marks.  Faithful to the
Python library on ASCII-only data. -/
def asciiU : UnicodeModel :=
  ⟨fun c => [c.toLower], fun c => [c.toUpper], fun c => [c], fun _ => false⟩

/-- Degenerate instantiation where every Unicode operation is the
identity; used to witness hypotheses about the Unicode model. -/
def idU : UnicodeModel :=
  ⟨fun c => [c], fun c => [c], fun c => [c], fun _ => false⟩

/-- The bundle of the spec's worked example: lexicon `{"casa": ["nyumba"]}`,
empty pronoun tables. -/
def casaBundle : EmakuaResources :=
  ⟨[("casa", [RawVal.str "nyumba"])], [], []⟩

/-- Bundle whose `personal` table carries a duplicated pronoun form. -/
def dupPronBundle : EmakuaResources :=
  ⟨[], [("eu", [RawVal.str "mi", RawVal.str "mi"])], []⟩

/-- Bundle with an empty lexicon key, a duplicated pronoun form and a
blank pronoun form. -/
def messyBundle : EmakuaResources :=
  ⟨[("", [RawVal.str "x"])],
   [("eu", [RawVal.str "mi", RawVal.str "mi", RawVal.str " "])], []⟩

/-- Bundle in which the raw pronoun key `"eu"` appears in both the
personal and the possessive table, with different forms. -/
def bothPronBundle : EmakuaResources :=
  ⟨[], [("eu", [RawVal.str "mi"])], [("eu", [RawVal.str "aka"])]⟩

/-! ### General helper lemmas -/

lemma flatMap_id_of {l : List Char} {f : Char → List Char}
    (h : ∀ x ∈ l, f x = [x]) : l.flatMap f = l := by
  induction l with
  | nil => rfl
  | cons x xs ih =>
    rw [List.flatMap_cons, h x (by simp), ih (fun y hy => h y (by simp [hy]))]
    rfl

lemma filter_id_of {l : List Char} {p : Char → Bool}
    (h : ∀ x ∈ l, p x = true) : l.filter p = l :=
  List.filter_eq_self.mpr h

/-! ### Claim C8: idempotence of the L1 normalizer -/

/-- C8: for every string `s`, `normalizeL1 (normalizeL1 s) = normalizeL1 s`,
and the output of `normalizeL1` contains no combining-mark code points.
The two hypotheses record facts about the Python Unicode library that the
source relies on: every code point produced by decomposing a lower-cased
code point is itself lower-case-stable and decomposition-stable. -/
theorem normalizeL1_idempotent (U : UnicodeModel)
    (H1 : ∀ a b, b ∈ U.lowerChar a → ∀ d ∈ U.nfdChar b, U.lowerChar d = [d])
    (H2 : ∀ a b, b ∈ U.lowerChar a → ∀ d ∈ U.nfdChar b, U.nfdChar d = [d])
    (s : String) :
    _normalize_pt U (_normalize_pt U s) = _normalize_pt U s ∧
    ∀ c ∈ (_normalize_pt U s).data, U.isMn c = false := by
  have hdata : (_normalize_pt U s).data
      = ((s.data.flatMap U.lowerChar).flatMap U.nfdChar).filter
          (fun c => !U.isMn c) := rfl
  have hmem : ∀ c ∈ (_normalize_pt U s).data,
      (∃ a, ∃ b ∈ U.lowerChar a, c ∈ U.nfdChar b) ∧ U.isMn c = false := by
    intro c hc
    rw [hdata, List.mem_filter] at hc
    obtain ⟨hc1, hc2⟩ := hc
    rw [List.mem_flatMap] at hc1
    obtain ⟨b, hb, hcb⟩ := hc1
    rw [List.mem_flatMap] at hb
    obtain ⟨a, _, hba⟩ := hb
    exact ⟨⟨a, b, hba, hcb⟩, by simpa using hc2⟩
  refine ⟨?_, fun c hc => (hmem c hc).2⟩
  have h1 : (_normalize_pt U s).data.flatMap U.lowerChar
      = (_normalize_pt U s).data := by
    apply flatMap_id_of
    intro c hc
    obtain ⟨⟨a, b, hba, hcb⟩, _⟩ := hmem c hc
    exact H1 a b hba c hcb
  have h2 : (_normalize_pt U s).data.flatMap U.nfdChar
      = (_normalize_pt U s).data := by
    apply flatMap_id_of
    intro c hc
    obtain ⟨⟨a, b, hba, hcb⟩, _⟩ := hmem c hc
    exact H2 a b hba c hcb
  have h3 : (_normalize_pt U s).data.filter (fun c => !U.isMn c)
      = (_normalize_pt U s).data := by
    apply filter_id_of
    intro c hc
    simpa using (hmem c hc).2
  show (⟨(((_normalize_pt U s).data.flatMap U.lowerChar).flatMap
      U.nfdChar).filter (fun c => !U.isMn c)⟩ : String) = _normalize_pt U s
  rw [h1, h2, h3]

/-- Witness for C8 at the identity Unicode model and a concrete string. -/
theorem normalizeL1_idempotent_witness :
    _normalize_pt idU (_normalize_pt idU "Casa") = _normalize_pt idU "Casa" ∧
    ∀ c ∈ (_normalize_pt idU "Casa").data, idU.isMn c = false :=
  normalizeL1_idempotent idU (fun _ _ _ _ _ => rfl) (fun _ _ _ _ _ => rfl)
    "Casa"

/-! ### Claim C5: empty input short-circuits -/

/-- C5: for each of the three recognized direction literals, translating
an empty or whitespace-only text returns the empty string, performs zero
resource-provider calls, and never raises (the result is `some ""`, not
`none`, for every provider state). -/
theorem translate_empty_input (U : UnicodeModel) (text direction : String)
    (provider : Option EmakuaResources)
    (hdir : direction = "auto" ∨ direction = "pt_to_em" ∨ direction = "em_to_pt")
    (hempty : pyStrip text = "") :
    translateRun U text direction provider = (some "", 0) := by
  unfold translateRun
  simp [hempty]

/-- Witness for C5 on a whitespace-only input. -/
theorem translate_empty_input_witness :
    translateRun asciiU "  " "auto" none = (some "", 0) :=
  translate_empty_input asciiU "  " "auto" none (Or.inl rfl) (by decide)

/-! ### Claim C10: unrecognized direction values fall through to
auto-detection -/

/-- C10: for non-empty text and any direction string other than the two
concrete literals `"pt_to_em"` and `"em_to_pt"` (including `"auto"` and
arbitrary junk), `translate` does not fail on the direction value: it
runs automatic direction detection and returns the sentence built for
the detected direction. -/
theorem translate_unknown_direction (U : UnicodeModel) (text direction : String)
    (R : EmakuaResources)
    (h1 : direction ≠ "pt_to_em") (h2 : direction ≠ "em_to_pt")
    (h3 : ¬ pyStrip text = "") :
    translateRun U text direction (some R) =
      (some (_build_sentence_from_lookup U (_tokenize (pyStrip text))
        (_detect_direction U (_tokenize (pyStrip text))
          (_build_indexes U R).lexicon_pt (_build_indexes U R).pronoun_pt
          (_build_indexes U R).lexicon_em (_build_indexes U R).pronoun_em)
        (_build_indexes U R)), 1) := by
  unfold translateRun
  simp [h1, h2, h3]

/-- Witness for C10: direction `"auto"` on a one-word text. -/
theorem translate_unknown_direction_witness :
    translateRun asciiU "casa" "auto" (some casaBundle) =
      (some (_build_sentence_from_lookup asciiU (_tokenize (pyStrip "casa"))
        (_detect_direction asciiU (_tokenize (pyStrip "casa"))
          (_build_indexes asciiU casaBundle).lexicon_pt
          (_build_indexes asciiU casaBundle).pronoun_pt
          (_build_indexes asciiU casaBundle).lexicon_em
          (_build_indexes asciiU casaBundle).pronoun_em)
        (_build_indexes asciiU casaBundle)), 1) :=
  translate_unknown_direction asciiU "casa" "auto" casaBundle
    (by decide) (by decide) (by decide)

/-! ### Claim C2: the worked multi-token example -/

/-- C2 counterexample: on the spec's own example the pipeline does not
return `"A Nyumba."`; only the first character of the whole sentence is
upper-cased, so the replacement word keeps its lower-case `n`. -/
theorem translate_casa_sentence_counterexample :
    (translateRun asciiU "a casa ." "pt_to_em" (some casaBundle)).1
      ≠ some "A Nyumba." := by decide

/-- C2 amended: translating `"a casa ."` from L1 to L2 over the lexicon
`{"casa": ["nyumba"]}` with empty pronoun tables yields exactly
`"A nyumba."`: the unknown word passes through, `casa` is replaced by its
first candidate, the space before the period is removed, and the first
letter of the sentence is capitalized. -/
theorem translate_casa_sentence :
    (translateRun asciiU "a casa ." "pt_to_em" (some casaBundle)).1
      = some "A nyumba." := by decide
/-! ### Claim C1: pronoun keys present in both tables -/

/-- Key skeleton of `dset` is invisible to `any`-based key tests. -/
lemma any_key_dset {α : Type} (m : List (String × α)) (k : String) (v : α)
    (q : String) :
    (dset m k v).any (fun p => decide (p.1 = q))
      = m.any (fun p => decide (p.1 = q)) := by
  induction m with
  | nil => rfl
  | cons p ps ih =>
    by_cases h : p.1 = k <;> simp [dset, List.any_cons, h] at ih ⊢ <;>
      rw [← ih]

/-- Overwriting the `personal` value of a key that the `possessive`
table also defines does not change the Python merge `{**pers, **poss}`. -/
lemma dictMerge_dset {α : Type} (pers poss : List (String × α)) (k : String)
    (vs : α) (hv : dget poss k = some vs) :
    dictMerge (dset pers k vs) poss = dictMerge pers poss := by
  obtain ⟨q0, hq0, hq2⟩ :
      ∃ q0, poss.find? (fun p => decide (p.1 = k)) = some q0 ∧ q0.2 = vs := by
    unfold dget at hv
    cases hfind : poss.find? (fun p => decide (p.1 = k)) with
    | none => rw [hfind] at hv; exact absurd hv (by simp)
    | some q0 => rw [hfind] at hv; exact ⟨q0, rfl, by simpa using hv⟩
  unfold dictMerge
  congr 1
  · induction pers with
    | nil => rfl
    | cons p ps ih =>
      by_cases h : p.1 = k
      · simp only [dset, List.map_cons, if_pos h] at ih ⊢
        rw [ih]
        congr 1
        simp only [h, hq0]
      · simp only [dset, List.map_cons, if_neg h] at ih ⊢
        rw [ih]
  · apply List.filter_congr
    intro q _
    rw [any_key_dset]

/-- C1 amended: when a raw pronoun key appears in both the `personal`
and the `possessive` table, index building processes that pronoun only
once, with the possessive form list; the personal form list contributes
nothing — neither to the L1-to-L2 pronoun index nor to the L2-to-L1
reverse pronoun index.  Formally: replacing the personal entry's forms
by the possessive ones changes none of the five built structures. -/
theorem pronoun_merge_possessive_wins (U : UnicodeModel)
    (lex pers poss : List (String × List RawVal)) (k : String)
    (vs : List RawVal)
    (hk : (dget pers k).isSome = true) (hv : dget poss k = some vs) :
    _build_indexes U ⟨lex, pers, poss⟩
      = _build_indexes U ⟨lex, dset pers k vs, poss⟩ := by
  unfold _build_indexes
  rw [show (⟨lex, pers, poss⟩ : EmakuaResources).pronouns_personal = pers
      from rfl]
  rw [show (⟨lex, dset pers k vs, poss⟩ : EmakuaResources).pronouns_personal
      = dset pers k vs from rfl]
  rw [dictMerge_dset pers poss k vs hv]

/-- C1 counterexample: with `personal = {"eu": ["mi"]}` and
`possessive = {"eu": ["aka"]}`, the reverse pronoun index has no entry
for the personal form `"mi"` — the key is not processed twice and the
reverse index does not accumulate both form lists. -/
theorem pronoun_merge_counterexample :
    dget (_build_indexes asciiU bothPronBundle).pronoun_pt "eu"
        = some ["aka"] ∧
    dget (_build_indexes asciiU bothPronBundle).pronoun_em "mi" = none ∧
    dget (_build_indexes asciiU bothPronBundle).pronoun_em "aka"
        = some ["eu"] := by decide

/-- Witness for the amended C1 on the concrete two-table bundle. -/
theorem pronoun_merge_possessive_wins_witness :
    _build_indexes asciiU ⟨[], [("eu", [RawVal.str "mi"])],
        [("eu", [RawVal.str "aka"])]⟩
      = _build_indexes asciiU ⟨[],
          dset [("eu", [RawVal.str "mi"])] "eu" [RawVal.str "aka"],
          [("eu", [RawVal.str "aka"])]⟩ :=
  pronoun_merge_possessive_wins asciiU [] [("eu", [RawVal.str "mi"])]
    [("eu", [RawVal.str "aka"])] "eu" [RawVal.str "aka"]
    (by decide) (by decide)

/-! ### Claim C7: direction detection -/

/-- The L1-side "known token" test of `_count_known_tokens`. -/
def knownPt (U : UnicodeModel) (lexicon_pt pronoun_pt : List (String × List String))
    (tok : String) : Bool :=
  (dget lexicon_pt (_normalize_pt U tok)).isSome
    || (dget pronoun_pt (_normalize_pt U tok)).isSome

/-- The L2-side "known token" test of `_count_known_tokens`. -/
def knownEm (U : UnicodeModel) (lexicon_em pronoun_em : List (String × List String))
    (tok : String) : Bool :=
  (dget lexicon_em (pyLowerStr U (pyStrip tok))).isSome
    || (dget pronoun_em (pyLowerStr U (pyStrip tok))).isSome

/-- The token counters are exactly `countP` of the two membership
tests restricted to non-punctuation tokens. -/
lemma count_known_tokens_spec (U : UnicodeModel) (tokens : List String)
    (lp pp le pe : List (String × List String)) :
    _count_known_tokens U tokens lp pp le pe =
      (tokens.countP (fun tok => !_is_punctuation tok && knownPt U lp pp tok),
       tokens.countP (fun tok => !_is_punctuation tok && knownEm U le pe tok)) := by
  suffices h : ∀ (ts : List String) (acc : Nat × Nat),
      ts.foldl (fun acc tok =>
        if _is_punctuation tok then acc
        else
          let norm_pt := _normalize_pt U tok
          let em_key := pyLowerStr U (pyStrip tok)
          let acc :=
            if (dget lp norm_pt).isSome || (dget pp norm_pt).isSome
            then (acc.1 + 1, acc.2) else acc
          if (dget le em_key).isSome || (dget pe em_key).isSome
          then (acc.1, acc.2 + 1) else acc) acc
      = (acc.1 + ts.countP (fun tok => !_is_punctuation tok && knownPt U lp pp tok),
         acc.2 + ts.countP (fun tok => !_is_punctuation tok && knownEm U le pe tok)) by
    unfold _count_known_tokens
    rw [h tokens (0, 0)]
    simp
  intro ts
  induction ts with
  | nil => intro acc; simp
  | cons t ts ih =>
    intro acc
    rw [List.foldl_cons, ih]
    by_cases hp : _is_punctuation t
    · simp [hp, List.countP_cons]
    · by_cases h1 : knownPt U lp pp t <;> by_cases h2 : knownEm U le pe t <;>
        simp [hp, h1, h2, knownPt, knownEm, List.countP_cons] at * <;>
        simp [h1, h2] <;> omega

/-- C7: the detector returns `"em_to_pt"` exactly when the number of
non-punctuation tokens found (without spelling correction) in the L2
lexicon or L2 pronoun index strictly exceeds the number found in the L1
lexicon or L1 pronoun index; ties (and the all-unknown case, where both
counts are zero) yield `"pt_to_em"`. -/
theorem detect_direction_spec (U : UnicodeModel) (tokens : List String)
    (lp pp le pe : List (String × List String)) :
    _detect_direction U tokens lp pp le pe =
      (if tokens.countP (fun tok => !_is_punctuation tok && knownEm U le pe tok)
          > tokens.countP (fun tok => !_is_punctuation tok && knownPt U lp pp tok)
       then "em_to_pt" else "pt_to_em") := by
  unfold _detect_direction
  rw [count_known_tokens_spec]
/-! ### Index invariants (claims C3 and C4) -/

lemma foldl_preserve {α σ : Type} (P : σ → Prop) {f : σ → α → σ}
    (h : ∀ s a, P s → P (f s a)) :
    ∀ (l : List α) (s : σ), P s → P (l.foldl f s) := by
  intro l
  induction l with
  | nil => intro s hs; exact hs
  | cons a l ih => intro s hs; exact ih (f s a) (h s a hs)

lemma dedupInto_nodup {start : List String} (l : List String)
    (h : start.Nodup) : (dedupInto start l).Nodup := by
  induction l generalizing start with
  | nil => exact h
  | cons v l ih =>
    show (dedupInto (if v ∈ start then start else start ++ [v]) l).Nodup
    by_cases hv : v ∈ start
    · rw [if_pos hv]; exact ih h
    · rw [if_neg hv]
      refine ih ?_
      rw [← List.concat_eq_append]
      exact List.Nodup.concat hv h

/-- Value lists produced by the guarded-append update (`if x not in t:
t.append(x)`) stay duplicate-free. -/
lemma guarded_append_nodup (t : List String) (x : String) (h : t.Nodup) :
    (if x ∈ t then t else t ++ [x]).Nodup := by
  by_cases hx : x ∈ t
  · rwa [if_pos hx]
  · rw [if_neg hx, ← List.concat_eq_append]
    exact List.Nodup.concat hx h

/-- A predicate holding for every value of a dict survives `dupdate`
when the update function sends good optional values to good values. -/
lemma dupdate_forall_vals {α : Type} (P : α → Prop)
    {m : List (String × α)} {k : String} {f : Option α → α}
    (hm : ∀ p ∈ m, P p.2)
    (hf : ∀ o : Option α, (∀ x, o = some x → P x) → P (f o)) :
    ∀ p ∈ dupdate m k f, P p.2 := by
  intro p hp
  unfold dupdate at hp
  by_cases hany : m.any (fun p => decide (p.1 = k))
  · rw [if_pos hany] at hp
    rw [List.mem_map] at hp
    obtain ⟨q, hq, hqp⟩ := hp
    by_cases hk : q.1 = k
    · rw [if_pos hk] at hqp
      rw [← hqp]
      exact hf (some q.2) (fun x hx => by
        cases hx; exact hm q hq)
    · rw [if_neg hk] at hqp
      rw [← hqp]
      exact hm q hq
  · rw [if_neg hany, List.mem_append] at hp
    cases hp with
    | inl h => exact hm p h
    | inr h =>
      rw [List.mem_singleton] at h
      rw [h]
      exact hf none (by simp)

/-- A predicate holding for every key of a dict survives `dupdate` with
a good new key. -/
lemma dupdate_forall_keys {α : Type} (Q : String → Prop)
    {m : List (String × α)} {k : String} {f : Option α → α}
    (hm : ∀ p ∈ m, Q p.1) (hk : Q k) :
    ∀ p ∈ dupdate m k f, Q p.1 := by
  intro p hp
  unfold dupdate at hp
  by_cases hany : m.any (fun p => decide (p.1 = k))
  · rw [if_pos hany] at hp
    rw [List.mem_map] at hp
    obtain ⟨q, hq, hqp⟩ := hp
    by_cases hkq : q.1 = k
    · rw [if_pos hkq] at hqp; rw [← hqp]; exact hm q hq
    · rw [if_neg hkq] at hqp; rw [← hqp]; exact hm q hq
  · rw [if_neg hany, List.mem_append] at hp
    cases hp with
    | inl h => exact hm p h
    | inr h => rw [List.mem_singleton] at h; rw [h]; exact hk

/-- The structural invariant maintained by `_build_indexes`: the three
index maps whose values are built by guarded appends have duplicate-free
value lists, and both L2-side maps have non-empty keys. -/
def GoodIndexes (S : Indexes) : Prop :=
  (∀ p ∈ S.lexicon_pt, List.Nodup p.2) ∧
  (∀ p ∈ S.lexicon_em, List.Nodup p.2) ∧
  (∀ p ∈ S.pronoun_em, List.Nodup p.2) ∧
  (∀ p ∈ S.lexicon_em, p.1 ≠ "") ∧
  (∀ p ∈ S.pronoun_em, p.1 ≠ "")

/-- The reverse-index fold step shared by lexicon and pronoun
processing, written out once. -/
def emFoldStep (U : UnicodeModel) (who : String)
    (m : List (String × List String)) (em_form : String) :
    List (String × List String) :=
  let em_key := pyLowerStr U (pyStrip em_form)
  if em_key = "" then m
  else dupdate m em_key (fun cur =>
    let t := cur.getD []
    if who ∈ t then t else t ++ [who])

lemma procLexEntry_lexicon_pt (U : UnicodeModel) (S : Indexes)
    (e : String × List RawVal) :
    (procLexEntry U S e).lexicon_pt =
      if cleanVals e.2 = [] then S.lexicon_pt
      else dupdate S.lexicon_pt (_normalize_pt U e.1)
        (fun cur => dedupInto (cur.getD []) (cleanVals e.2)) := by
  unfold procLexEntry
  by_cases hs : (dget S.spell_vocab_pt (_normalize_pt U e.1)).isSome <;>
    by_cases hc : cleanVals e.2 = [] <;> simp [hs, hc]

lemma procLexEntry_lexicon_em (U : UnicodeModel) (S : Indexes)
    (e : String × List RawVal) :
    (procLexEntry U S e).lexicon_em =
      if cleanVals e.2 = [] then S.lexicon_em
      else (cleanVals e.2).foldl (emFoldStep U e.1) S.lexicon_em := by
  unfold procLexEntry emFoldStep
  by_cases hs : (dget S.spell_vocab_pt (_normalize_pt U e.1)).isSome <;>
    by_cases hc : cleanVals e.2 = [] <;> simp [hs, hc]

lemma procLexEntry_pronoun_pt (U : UnicodeModel) (S : Indexes)
    (e : String × List RawVal) :
    (procLexEntry U S e).pronoun_pt = S.pronoun_pt := by
  unfold procLexEntry
  by_cases hs : (dget S.spell_vocab_pt (_normalize_pt U e.1)).isSome <;>
    by_cases hc : cleanVals e.2 = [] <;> simp [hs, hc]

lemma procLexEntry_pronoun_em (U : UnicodeModel) (S : Indexes)
    (e : String × List RawVal) :
    (procLexEntry U S e).pronoun_em = S.pronoun_em := by
  unfold procLexEntry
  by_cases hs : (dget S.spell_vocab_pt (_normalize_pt U e.1)).isSome <;>
    by_cases hc : cleanVals e.2 = [] <;> simp [hs, hc]

/-- The stripped form list computed for one pronoun entry. -/
def pronForms (e : String × List RawVal) : List String :=
  e.2.filterMap (fun v =>
    match v with
    | .str s => some (pyStrip s)
    | .nonstr => none)

lemma filterMap_eq_pronForms (e : String × List RawVal) :
    e.2.filterMap (fun v =>
      match v with
      | .str s => some (pyStrip s)
      | .nonstr => none) = pronForms e := rfl

lemma procPronEntry_pronoun_pt (U : UnicodeModel) (S : Indexes)
    (e : String × List RawVal) :
    (procPronEntry U S e).pronoun_pt =
      if pronForms e = [] then S.pronoun_pt
      else dupdate S.pronoun_pt (_normalize_pt U e.1) (fun _ => pronForms e) := by
  unfold procPronEntry
  rw [filterMap_eq_pronForms]
  by_cases he : pronForms e = [] <;>
    [skip;
     by_cases hs : (dget S.spell_vocab_pt (_normalize_pt U e.1)).isSome] <;>
    simp [he, *]

lemma procPronEntry_pronoun_em (U : UnicodeModel) (S : Indexes)
    (e : String × List RawVal) :
    (procPronEntry U S e).pronoun_em =
      if pronForms e = [] then S.pronoun_em
      else (pronForms e).foldl (emFoldStep U e.1) S.pronoun_em := by
  unfold procPronEntry emFoldStep
  rw [filterMap_eq_pronForms]
  by_cases he : pronForms e = [] <;>
    [skip;
     by_cases hs : (dget S.spell_vocab_pt (_normalize_pt U e.1)).isSome] <;>
    simp [he, *]

lemma procPronEntry_lexicon_pt (U : UnicodeModel) (S : Indexes)
    (e : String × List RawVal) :
    (procPronEntry U S e).lexicon_pt = S.lexicon_pt := by
  unfold procPronEntry
  rw [filterMap_eq_pronForms]
  by_cases he : pronForms e = [] <;>
    [skip;
     by_cases hs : (dget S.spell_vocab_pt (_normalize_pt U e.1)).isSome] <;>
    simp [he, *]

lemma procPronEntry_lexicon_em (U : UnicodeModel) (S : Indexes)
    (e : String × List RawVal) :
    (procPronEntry U S e).lexicon_em = S.lexicon_em := by
  unfold procPronEntry
  rw [filterMap_eq_pronForms]
  by_cases he : pronForms e = [] <;>
    [skip;
     by_cases hs : (dget S.spell_vocab_pt (_normalize_pt U e.1)).isSome] <;>
    simp [he, *]

/-- One reverse-index fold step keeps value lists duplicate-free and
keys non-empty. -/
lemma emFoldStep_good (U : UnicodeModel) (who : String)
    (m : List (String × List String)) (a : String)
    (hm : ∀ p ∈ m, List.Nodup p.2 ∧ p.1 ≠ "") :
    ∀ p ∈ emFoldStep U who m a, List.Nodup p.2 ∧ p.1 ≠ "" := by
  unfold emFoldStep
  by_cases he : pyLowerStr U (pyStrip a) = ""
  · simpa [he] using hm
  · simp only [he, if_false]
    intro p hp
    constructor
    · refine dupdate_forall_vals List.Nodup (fun q hq => (hm q hq).1) ?_ p hp
      intro o ho
      apply guarded_append_nodup
      cases o with
      | none => simp
      | some t => simpa using ho t rfl
    · exact dupdate_forall_keys (fun k => k ≠ "")
        (fun q hq => (hm q hq).2) he p hp

/-- The reverse-index fold keeps value lists duplicate-free and keys
non-empty. -/
lemma emFold_good (U : UnicodeModel) (who : String) (forms : List String)
    (m : List (String × List String))
    (hm : ∀ p ∈ m, List.Nodup p.2 ∧ p.1 ≠ "") :
    ∀ p ∈ forms.foldl (emFoldStep U who) m, List.Nodup p.2 ∧ p.1 ≠ "" :=
  foldl_preserve (fun m => ∀ p ∈ m, List.Nodup p.2 ∧ p.1 ≠ "")
    (fun s a hs => emFoldStep_good U who s a hs) forms m hm

lemma procLexEntry_good (U : UnicodeModel) (S : Indexes)
    (e : String × List RawVal) (h : GoodIndexes S) :
    GoodIndexes (procLexEntry U S e) := by
  obtain ⟨h1, h2, h3, h4, h5⟩ := h
  have hfold := emFold_good U e.1 (cleanVals e.2) S.lexicon_em
    (fun p hp => ⟨h2 p hp, h4 p hp⟩)
  refine ⟨?_, ?_, ?_, ?_, ?_⟩
  · rw [procLexEntry_lexicon_pt]
    by_cases hc : cleanVals e.2 = []
    · simpa [hc] using h1
    · simp only [hc, if_false]
      refine dupdate_forall_vals List.Nodup h1 ?_
      intro o ho
      apply dedupInto_nodup
      cases o with
      | none => simp
      | some t => simpa using ho t rfl
  · rw [procLexEntry_lexicon_em]
    by_cases hc : cleanVals e.2 = []
    · simpa [hc] using h2
    · simp only [hc, if_false]
      exact fun p hp => (hfold p hp).1
  · rw [procLexEntry_pronoun_em]; exact h3
  · rw [procLexEntry_lexicon_em]
    by_cases hc : cleanVals e.2 = []
    · simpa [hc] using h4
    · simp only [hc, if_false]
      exact fun p hp => (hfold p hp).2
  · rw [procLexEntry_pronoun_em]; exact h5

lemma procPronEntry_good (U : UnicodeModel) (S : Indexes)
    (e : String × List RawVal) (h : GoodIndexes S) :
    GoodIndexes (procPronEntry U S e) := by
  obtain ⟨h1, h2, h3, h4, h5⟩ := h
  have hfold := emFold_good U e.1 (pronForms e) S.pronoun_em
    (fun p hp => ⟨h3 p hp, h5 p hp⟩)
  refine ⟨?_, ?_, ?_, ?_, ?_⟩
  · rw [procPronEntry_lexicon_pt]; exact h1
  · rw [procPronEntry_lexicon_em]; exact h2
  · rw [procPronEntry_pronoun_em]
    by_cases he : pronForms e = []
    · simpa [he] using h3
    · simp only [he, if_false]
      exact fun p hp => (hfold p hp).1
  · rw [procPronEntry_lexicon_em]; exact h4
  · rw [procPronEntry_pronoun_em]
    by_cases he : pronForms e = []
    · simpa [he] using h5
    · simp only [he, if_false]
      exact fun p hp => (hfold p hp).2

/-- Every bundle builds indexes satisfying the structural invariant. -/
lemma build_indexes_good (U : UnicodeModel) (R : EmakuaResources) :
    GoodIndexes (_build_indexes U R) := by
  unfold _build_indexes
  apply foldl_preserve GoodIndexes (fun s a => procPronEntry_good U s a)
  apply foldl_preserve GoodIndexes (fun s a => procLexEntry_good U s a)
  exact ⟨by simp, by simp, by simp, by simp, by simp⟩
/-! ### Claims C3 and C4 -/

lemma capAt4_length (c : List String) :
    (if c.length > 4 then c.take 4 else c).length ≤ 4 := by
  by_cases h : c.length > 4
  · simp only [h, if_true, List.length_take]
    omega
  · simp only [h, if_false]
    omega

lemma capAt4_nodup (c : List String) (h : c.Nodup) :
    (if c.length > 4 then c.take 4 else c).Nodup := by
  by_cases hl : c.length > 4
  · simp only [hl, if_true]
    exact List.Nodup.sublist (List.take_sublist _ _) h
  · simpa [hl] using h

lemma getD_nodup (m : List (String × List String)) (k : String)
    (h : ∀ p ∈ m, List.Nodup p.2) : ((dget m k).getD []).Nodup := by
  unfold dget
  cases hf : m.find? (fun p => decide (p.1 = k)) with
  | none => simp
  | some q =>
    show q.2.Nodup
    exact h q (List.mem_of_find?_eq_some hf)

/-- Two-predicate variant of `dupdate_forall_vals`: untouched values
are carried over by `himp`, the updated or fresh value by `hf`. -/
lemma dupdate_forall_vals2 {α : Type} (Pold Pnew : α → Prop)
    {m : List (String × α)} {k : String} {f : Option α → α}
    (hm : ∀ p ∈ m, Pold p.2)
    (himp : ∀ v, Pold v → Pnew v)
    (hf : ∀ o : Option α, (∀ x, o = some x → Pold x) → Pnew (f o)) :
    ∀ p ∈ dupdate m k f, Pnew p.2 := by
  intro p hp
  unfold dupdate at hp
  by_cases hany : m.any (fun p => decide (p.1 = k))
  · rw [if_pos hany, List.mem_map] at hp
    obtain ⟨q, hq, hqp⟩ := hp
    by_cases hk : q.1 = k
    · rw [if_pos hk] at hqp
      rw [← hqp]
      exact hf (some q.2) (fun x hx => by cases hx; exact hm q hq)
    · rw [if_neg hk] at hqp
      rw [← hqp]
      exact himp q.2 (hm q hq)
  · rw [if_neg hany, List.mem_append] at hp
    cases hp with
    | inl h => exact himp p.2 (hm p h)
    | inr h =>
      rw [List.mem_singleton] at h
      rw [h]
      exact hf none (by simp)

/-- Pair-level preservation under a constant-value `dupdate`. -/
lemma dupdate_const_forall {α : Type} (P : String × α → Prop)
    (m : List (String × α)) (k : String) (v : α)
    (hm : ∀ p ∈ m, P p) (hk : P (k, v)) :
    ∀ p ∈ dupdate m k (fun _ => v), P p := by
  intro p hp
  unfold dupdate at hp
  by_cases hany : m.any (fun p => decide (p.1 = k))
  · rw [if_pos hany, List.mem_map] at hp
    obtain ⟨q, hq, hqp⟩ := hp
    by_cases hkq : q.1 = k
    · rw [if_pos hkq] at hqp
      rw [← hqp, hkq]
      exact hk
    · rw [if_neg hkq] at hqp
      rw [← hqp]
      exact hm q hq
  · rw [if_neg hany, List.mem_append] at hp
    cases hp with
    | inl h => exact hm p h
    | inr h =>
      rw [List.mem_singleton] at h
      rw [h]
      exact hk

lemma foldl_preserve_of_mem {α σ : Type} (P : σ → Prop) {f : σ → α → σ} :
    ∀ (l : List α), (∀ s a, a ∈ l → P s → P (f s a)) →
    ∀ s, P s → P (l.foldl f s) := by
  intro l
  induction l with
  | nil => intro _ s hs; exact hs
  | cons a t ih =>
    intro h s hs
    exact ih (fun s b hb hp => h s b (List.mem_cons_of_mem a hb) hp)
      (f s a) (h s a (List.mem_cons_self a t) hs)

/-- Every cleaned lexicon value is a non-blank string. -/
lemma cleanVals_mem_ne (vals : List RawVal) :
    ∀ v ∈ cleanVals vals, v ≠ "" := by
  intro v hv
  unfold cleanVals at hv
  rw [List.mem_filterMap] at hv
  obtain ⟨a, _, ha⟩ := hv
  cases a with
  | nonstr => simp at ha
  | str t =>
    by_cases ht : pyStrip t = ""
    · simp [ht] at ha
    · simp only [ht, if_false, Option.some_inj] at ha
      rw [← ha]
      exact ht

/-- Elements of a guarded-append fold come from the seed or from the
appended list. -/
lemma mem_dedupInto : ∀ (l start : List String) (v : String),
    v ∈ dedupInto start l → v ∈ start ∨ v ∈ l := by
  intro l
  induction l with
  | nil => intro start v h; exact Or.inl h
  | cons x xs ih =>
    intro start v h
    have h2 := ih (if x ∈ start then start else start ++ [x]) v h
    cases h2 with
    | inl hs =>
      by_cases hx : x ∈ start
      · rw [if_pos hx] at hs
        exact Or.inl hs
      · rw [if_neg hx, List.mem_append] at hs
        cases hs with
        | inl h1 => exact Or.inl h1
        | inr h1 =>
          rw [List.mem_singleton] at h1
          rw [h1]
          exact Or.inr (List.mem_cons_self x xs)
    | inr ht => exact Or.inr (List.mem_cons_of_mem x ht)

/-- The guarded-append fold preserves the relative order of its inputs:
the result is a sublist of (any supersequence of the seed) followed by
the appended list. -/
lemma dedupInto_sublist : ∀ (l start done : List String),
    start.Sublist done → (dedupInto start l).Sublist (done ++ l) := by
  intro l
  induction l with
  | nil =>
    intro start done h
    rw [List.append_nil]
    exact h
  | cons x xs ih =>
    intro start done h
    have h2 : (dedupInto (if x ∈ start then start else start ++ [x]) xs).Sublist
        ((done ++ [x]) ++ xs) := by
      apply ih
      by_cases hx : x ∈ start
      · rw [if_pos hx]
        exact h.trans (List.sublist_append_left done [x])
      · rw [if_neg hx]
        exact h.append (List.Sublist.refl [x])
    rw [show dedupInto start (x :: xs)
        = dedupInto (if x ∈ start then start else start ++ [x]) xs from rfl]
    rw [show done ++ x :: xs = (done ++ [x]) ++ xs by
      rw [List.append_assoc]; rfl]
    exact h2

/-- Each value produced by the reverse-index fold is (a sublist of the
previously seen keys) optionally extended by the current key at the end;
this is the order-preservation invariant of the guarded append. -/
lemma emFold_sublist (U : UnicodeModel) (who : String) (done : List String)
    (forms : List String) (m : List (String × List String))
    (hm : ∀ p ∈ m, ∃ t, t.Sublist done ∧ (p.2 = t ∨ p.2 = t ++ [who])) :
    ∀ p ∈ forms.foldl (emFoldStep U who) m,
      ∃ t, t.Sublist done ∧ (p.2 = t ∨ p.2 = t ++ [who]) := by
  have step : ∀ (s : List (String × List String)) (a : String),
      (∀ p ∈ s, ∃ t, t.Sublist done ∧ (p.2 = t ∨ p.2 = t ++ [who])) →
      ∀ p ∈ emFoldStep U who s a,
        ∃ t, t.Sublist done ∧ (p.2 = t ∨ p.2 = t ++ [who]) := by
    intro s a hs
    unfold emFoldStep
    by_cases he : pyLowerStr U (pyStrip a) = ""
    · simpa [he] using hs
    · simp only [he, if_false]
      apply dupdate_forall_vals
        (fun v => ∃ t, t.Sublist done ∧ (v = t ∨ v = t ++ [who])) hs
      intro o ho
      cases o with
      | none => exact ⟨[], List.nil_sublist done, Or.inr rfl⟩
      | some v =>
        obtain ⟨t, ht, hv⟩ := ho v rfl
        cases hv with
        | inl h =>
          subst h
          by_cases hw : who ∈ v
          · exact ⟨v, ht, Or.inl (if_pos hw)⟩
          · exact ⟨v, ht, Or.inr (if_neg hw)⟩
        | inr h =>
          have hw : who ∈ v := by rw [h]; simp
          exact ⟨t, ht, Or.inr ((if_pos hw).trans h)⟩
  exact foldl_preserve _ step forms m hm

lemma lexfold_em_sublist (U : UnicodeModel) :
    ∀ (entries : List (String × List RawVal)) (S : Indexes)
      (done : List String),
    (∀ p ∈ S.lexicon_em, p.2.Sublist done) →
    ∀ p ∈ (entries.foldl (procLexEntry U) S).lexicon_em,
      p.2.Sublist (done ++ entries.map (fun e => e.1)) := by
  intro entries
  induction entries with
  | nil =>
    intro S done hm p hp
    rw [List.map_nil, List.append_nil]
    exact hm p hp
  | cons e rest ih =>
    intro S done hm p hp
    rw [List.foldl_cons] at hp
    have hstep : ∀ q ∈ (procLexEntry U S e).lexicon_em,
        q.2.Sublist (done ++ [e.1]) := by
      intro q hq
      rw [procLexEntry_lexicon_em] at hq
      by_cases hc : cleanVals e.2 = []
      · rw [if_pos hc] at hq
        exact (hm q hq).trans (List.sublist_append_left done [e.1])
      · rw [if_neg hc] at hq
        obtain ⟨t, ht, hcase⟩ := emFold_sublist U e.1 done (cleanVals e.2)
          S.lexicon_em (fun r hr => ⟨r.2, hm r hr, Or.inl rfl⟩) q hq
        cases hcase with
        | inl h =>
          rw [h]
          exact ht.trans (List.sublist_append_left done [e.1])
        | inr h =>
          rw [h]
          exact ht.append (List.Sublist.refl [e.1])
    have h2 := ih (procLexEntry U S e) (done ++ [e.1]) hstep p hp
    rw [List.map_cons, ← List.singleton_append, ← List.append_assoc]
    exact h2

lemma pronfold_em_sublist (U : UnicodeModel) :
    ∀ (entries : List (String × List RawVal)) (S : Indexes)
      (done : List String),
    (∀ p ∈ S.pronoun_em, p.2.Sublist done) →
    ∀ p ∈ (entries.foldl (procPronEntry U) S).pronoun_em,
      p.2.Sublist (done ++ entries.map (fun e => e.1)) := by
  intro entries
  induction entries with
  | nil =>
    intro S done hm p hp
    rw [List.map_nil, List.append_nil]
    exact hm p hp
  | cons e rest ih =>
    intro S done hm p hp
    rw [List.foldl_cons] at hp
    have hstep : ∀ q ∈ (procPronEntry U S e).pronoun_em,
        q.2.Sublist (done ++ [e.1]) := by
      intro q hq
      rw [procPronEntry_pronoun_em] at hq
      by_cases hc : pronForms e = []
      · rw [if_pos hc] at hq
        exact (hm q hq).trans (List.sublist_append_left done [e.1])
      · rw [if_neg hc] at hq
        obtain ⟨t, ht, hcase⟩ := emFold_sublist U e.1 done (pronForms e)
          S.pronoun_em (fun r hr => ⟨r.2, hm r hr, Or.inl rfl⟩) q hq
        cases hcase with
        | inl h =>
          rw [h]
          exact ht.trans (List.sublist_append_left done [e.1])
        | inr h =>
          rw [h]
          exact ht.append (List.Sublist.refl [e.1])
    have h2 := ih (procPronEntry U S e) (done ++ [e.1]) hstep p hp
    rw [List.map_cons, ← List.singleton_append, ← List.append_assoc]
    exact h2

lemma lexfold_pt_sublist (U : UnicodeModel) :
    ∀ (entries : List (String × List RawVal)) (S : Indexes)
      (done : List String),
    (∀ p ∈ S.lexicon_pt, p.2.Sublist done) →
    ∀ p ∈ (entries.foldl (procLexEntry U) S).lexicon_pt,
      p.2.Sublist (done ++ (entries.map (fun e => cleanVals e.2)).flatten) := by
  intro entries
  induction entries with
  | nil =>
    intro S done hm p hp
    rw [List.map_nil, List.flatten_nil, List.append_nil]
    exact hm p hp
  | cons e rest ih =>
    intro S done hm p hp
    rw [List.foldl_cons] at hp
    have hstep : ∀ q ∈ (procLexEntry U S e).lexicon_pt,
        q.2.Sublist (done ++ cleanVals e.2) := by
      intro q hq
      rw [procLexEntry_lexicon_pt] at hq
      by_cases hc : cleanVals e.2 = []
      · rw [if_pos hc] at hq
        rw [hc, List.append_nil]
        exact hm q hq
      · rw [if_neg hc] at hq
        refine dupdate_forall_vals2 (fun v => v.Sublist done)
          (fun v => v.Sublist (done ++ cleanVals e.2)) hm
          (fun v hv => hv.trans (List.sublist_append_left done (cleanVals e.2)))
          ?_ q hq
        intro o ho
        cases o with
        | none =>
          exact dedupInto_sublist (cleanVals e.2) [] done (List.nil_sublist done)
        | some t =>
          exact dedupInto_sublist (cleanVals e.2) t done (ho t rfl)
    have h2 := ih (procLexEntry U S e) (done ++ cleanVals e.2) hstep p hp
    rw [List.map_cons, List.flatten_cons, ← List.append_assoc]
    exact h2

lemma lexfold_pronoun_pt (U : UnicodeModel) :
    ∀ (entries : List (String × List RawVal)) (S : Indexes),
    (entries.foldl (procLexEntry U) S).pronoun_pt = S.pronoun_pt := by
  intro entries
  induction entries with
  | nil => intro S; rfl
  | cons e rest ih =>
    intro S
    rw [List.foldl_cons, ih (procLexEntry U S e), procLexEntry_pronoun_pt]

lemma lexfold_pronoun_em (U : UnicodeModel) :
    ∀ (entries : List (String × List RawVal)) (S : Indexes),
    (entries.foldl (procLexEntry U) S).pronoun_em = S.pronoun_em := by
  intro entries
  induction entries with
  | nil => intro S; rfl
  | cons e rest ih =>
    intro S
    rw [List.foldl_cons, ih (procLexEntry U S e), procLexEntry_pronoun_em]

lemma pronfold_lexicon_pt (U : UnicodeModel) :
    ∀ (entries : List (String × List RawVal)) (S : Indexes),
    (entries.foldl (procPronEntry U) S).lexicon_pt = S.lexicon_pt := by
  intro entries
  induction entries with
  | nil => intro S; rfl
  | cons e rest ih =>
    intro S
    rw [List.foldl_cons, ih (procPronEntry U S e), procPronEntry_lexicon_pt]

lemma pronfold_lexicon_em (U : UnicodeModel) :
    ∀ (entries : List (String × List RawVal)) (S : Indexes),
    (entries.foldl (procPronEntry U) S).lexicon_em = S.lexicon_em := by
  intro entries
  induction entries with
  | nil => intro S; rfl
  | cons e rest ih =>
    intro S
    rw [List.foldl_cons, ih (procPronEntry U S e), procPronEntry_lexicon_em]

/-- Blank lexicon values never reach the forward lexicon index. -/
lemma lexfold_pt_blank (U : UnicodeModel)
    (entries : List (String × List RawVal)) (S : Indexes)
    (hS : ∀ p ∈ S.lexicon_pt, ∀ v ∈ p.2, v ≠ "") :
    ∀ p ∈ (entries.foldl (procLexEntry U) S).lexicon_pt,
      ∀ v ∈ p.2, v ≠ "" := by
  have step : ∀ (S : Indexes) (e : String × List RawVal),
      (∀ p ∈ S.lexicon_pt, ∀ v ∈ p.2, v ≠ "") →
      ∀ p ∈ (procLexEntry U S e).lexicon_pt, ∀ v ∈ p.2, v ≠ "" := by
    intro S e hSe p hp
    rw [procLexEntry_lexicon_pt] at hp
    by_cases hc : cleanVals e.2 = []
    · rw [if_pos hc] at hp
      exact hSe p hp
    · rw [if_neg hc] at hp
      refine dupdate_forall_vals (fun l => ∀ v ∈ l, v ≠ "") hSe ?_ p hp
      intro o ho v hv
      rcases mem_dedupInto (cleanVals e.2) (o.getD []) v hv with h | h
      · cases o with
        | none => simp at h
        | some t => exact ho t rfl v h
      · exact cleanVals_mem_ne e.2 v h
  exact foldl_preserve _ step entries S hS

/-- Every forward pronoun value list is the verbatim stripped form list
of some merged pronoun entry with the matching normalized key. -/
lemma pron_pt_verbatim (U : UnicodeModel)
    (entries : List (String × List RawVal)) (S : Indexes)
    (hS : ∀ p ∈ S.pronoun_pt, ∃ e ∈ entries,
      _normalize_pt U e.1 = p.1 ∧ p.2 = pronForms e ∧ pronForms e ≠ []) :
    ∀ p ∈ (entries.foldl (procPronEntry U) S).pronoun_pt,
      ∃ e ∈ entries,
        _normalize_pt U e.1 = p.1 ∧ p.2 = pronForms e ∧ pronForms e ≠ [] := by
  refine foldl_preserve_of_mem
    (fun S => ∀ p ∈ S.pronoun_pt, ∃ e ∈ entries,
      _normalize_pt U e.1 = p.1 ∧ p.2 = pronForms e ∧ pronForms e ≠ [])
    entries ?_ S hS
  intro s a ha hs p hp
  rw [procPronEntry_pronoun_pt] at hp
  by_cases hc : pronForms a = []
  · rw [if_pos hc] at hp
    exact hs p hp
  · rw [if_neg hc] at hp
    exact dupdate_const_forall
      (fun p => ∃ e ∈ entries,
        _normalize_pt U e.1 = p.1 ∧ p.2 = pronForms e ∧ pronForms e ≠ [])
      s.pronoun_pt (_normalize_pt U a.1) (pronForms a) hs
      ⟨a, ha, rfl, rfl, hc⟩ p hp

/-- C4 counterexample: on a bundle with an empty lexicon key and a
pronoun whose raw forms repeat and contain a blank, the built indexes
have an empty key (in the spelling vocabulary and the L1 lexicon index)
and a forward pronoun value list that is neither de-duplicated nor free
of empty strings. -/
theorem build_indexes_counterexample :
    dget (_build_indexes asciiU messyBundle).spell_vocab_pt "" = some "" ∧
    dget (_build_indexes asciiU messyBundle).lexicon_pt "" = some ["x"] ∧
    dget (_build_indexes asciiU messyBundle).pronoun_pt "eu"
      = some ["mi", "mi", ""] := by decide

/-- C4 amended: for every bundle, every key of the two L2-side index
maps is non-empty; the value lists of the L1-to-L2 lexicon index and of
both L2-to-L1 reverse indexes are de-duplicated and preserve first-seen
insertion order (each is duplicate-free and a sublist of its
contribution order: the concatenation of the cleaned value lists in
bundle order for the forward lexicon index, the bundle order of raw L1
words for the lexicon reverse index, and the merged-table order of raw
L1 pronouns for the pronoun reverse index); blank and non-string
lexicon values are dropped silently, so no forward-lexicon value list
contains an empty string; L1-side keys may be empty (when the raw word
normalizes to the empty string), and every L1-to-L2 pronoun value list
is the verbatim trimmed raw form list of a merged pronoun entry with
the matching normalized key, possibly containing duplicates and empty
strings (only non-string pronoun forms are dropped).  Index building is
a total function: it never raises. -/
theorem build_indexes_invariants (U : UnicodeModel) (R : EmakuaResources) :
    (∀ p ∈ (_build_indexes U R).lexicon_em, p.1 ≠ "") ∧
    (∀ p ∈ (_build_indexes U R).pronoun_em, p.1 ≠ "") ∧
    (∀ p ∈ (_build_indexes U R).lexicon_pt, List.Nodup p.2) ∧
    (∀ p ∈ (_build_indexes U R).lexicon_em, List.Nodup p.2) ∧
    (∀ p ∈ (_build_indexes U R).pronoun_em, List.Nodup p.2) ∧
    (∀ p ∈ (_build_indexes U R).lexicon_pt, ∀ v ∈ p.2, v ≠ "") ∧
    (∀ p ∈ (_build_indexes U R).lexicon_pt,
      p.2.Sublist ((R.lexicon.map (fun e => cleanVals e.2)).flatten)) ∧
    (∀ p ∈ (_build_indexes U R).lexicon_em,
      p.2.Sublist (R.lexicon.map (fun e => e.1))) ∧
    (∀ p ∈ (_build_indexes U R).pronoun_em,
      p.2.Sublist ((dictMerge R.pronouns_personal
        R.pronouns_possessive).map (fun e => e.1))) ∧
    (∀ p ∈ (_build_indexes U R).pronoun_pt,
      ∃ e ∈ dictMerge R.pronouns_personal R.pronouns_possessive,
        _normalize_pt U e.1 = p.1 ∧ p.2 = pronForms e ∧ pronForms e ≠ []) := by
  obtain ⟨g1, g2, g3, g4, g5⟩ := build_indexes_good U R
  have hI : _build_indexes U R
      = (dictMerge R.pronouns_personal R.pronouns_possessive).foldl
          (procPronEntry U)
          (R.lexicon.foldl (procLexEntry U) ⟨[], [], [], [], []⟩) := rfl
  have hlex_pt : (_build_indexes U R).lexicon_pt
      = (R.lexicon.foldl (procLexEntry U)
          (⟨[], [], [], [], []⟩ : Indexes)).lexicon_pt := by
    rw [hI, pronfold_lexicon_pt]
  have hlex_em : (_build_indexes U R).lexicon_em
      = (R.lexicon.foldl (procLexEntry U)
          (⟨[], [], [], [], []⟩ : Indexes)).lexicon_em := by
    rw [hI, pronfold_lexicon_em]
  have hpron_pt_init : (R.lexicon.foldl (procLexEntry U)
      (⟨[], [], [], [], []⟩ : Indexes)).pronoun_pt = [] := by
    rw [lexfold_pronoun_pt]
  have hpron_em_init : (R.lexicon.foldl (procLexEntry U)
      (⟨[], [], [], [], []⟩ : Indexes)).pronoun_em = [] := by
    rw [lexfold_pronoun_em]
  refine ⟨g4, g5, g1, g2, g3, ?_, ?_, ?_, ?_, ?_⟩
  · rw [hlex_pt]
    exact lexfold_pt_blank U R.lexicon ⟨[], [], [], [], []⟩
      (fun p hp => absurd hp (List.not_mem_nil p))
  · rw [hlex_pt]
    intro p hp
    have h2 := lexfold_pt_sublist U R.lexicon ⟨[], [], [], [], []⟩ []
      (fun p hp => absurd hp (List.not_mem_nil p)) p hp
    simpa using h2
  · rw [hlex_em]
    intro p hp
    have h2 := lexfold_em_sublist U R.lexicon ⟨[], [], [], [], []⟩ []
      (fun p hp => absurd hp (List.not_mem_nil p)) p hp
    simpa using h2
  · rw [hI]
    intro p hp
    have h2 := pronfold_em_sublist U
      (dictMerge R.pronouns_personal R.pronouns_possessive)
      (R.lexicon.foldl (procLexEntry U) ⟨[], [], [], [], []⟩) []
      (fun q hq => absurd (hpron_em_init ▸ hq) (List.not_mem_nil q)) p hp
    simpa using h2
  · rw [hI]
    exact pron_pt_verbatim U
      (dictMerge R.pronouns_personal R.pronouns_possessive)
      (R.lexicon.foldl (procLexEntry U) ⟨[], [], [], [], []⟩)
      (fun q hq => absurd (hpron_pt_init ▸ hq) (List.not_mem_nil q))

/-- C3 counterexample: over indexes built from a bundle whose personal
pronoun list repeats a form, `lookup_pt_to_em` returns a candidates list
with a duplicate. -/
theorem lookup_duplicates_counterexample :
    (lookup_pt_to_em asciiU "eu"
      (_build_indexes asciiU dupPronBundle).lexicon_pt
      (_build_indexes asciiU dupPronBundle).pronoun_pt
      (_build_indexes asciiU dupPronBundle).spell_vocab_pt).candidates
      = ["mi", "mi"] ∧
    ¬ (lookup_pt_to_em asciiU "eu"
      (_build_indexes asciiU dupPronBundle).lexicon_pt
      (_build_indexes asciiU dupPronBundle).pronoun_pt
      (_build_indexes asciiU dupPronBundle).spell_vocab_pt).candidates.Nodup := by
  decide

/-- C3 amended: over built indexes both lookups always return at most 4
candidates; `lookup_em_to_pt` candidates are always duplicate-free, and
`lookup_pt_to_em` candidates are duplicate-free provided the forward
pronoun value list consulted for the word is itself duplicate-free
(which the builder does not guarantee, since it copies raw pronoun form
lists verbatim).  The first three conjuncts are unconditional. -/
theorem lookup_candidates_spec (U : UnicodeModel) (word : String)
    (R : EmakuaResources) :
    (lookup_pt_to_em U word (_build_indexes U R).lexicon_pt
      (_build_indexes U R).pronoun_pt
      (_build_indexes U R).spell_vocab_pt).candidates.length ≤ 4 ∧
    (lookup_em_to_pt U word (_build_indexes U R).lexicon_em
      (_build_indexes U R).pronoun_em).candidates.length ≤ 4 ∧
    (lookup_em_to_pt U word (_build_indexes U R).lexicon_em
      (_build_indexes U R).pronoun_em).candidates.Nodup ∧
    (((dget (_build_indexes U R).pronoun_pt
        (_normalize_pt U (correct_spelling_pt U word
          (_build_indexes U R).spell_vocab_pt))).getD []).Nodup →
      (lookup_pt_to_em U word (_build_indexes U R).lexicon_pt
        (_build_indexes U R).pronoun_pt
        (_build_indexes U R).spell_vocab_pt).candidates.Nodup) := by
  obtain ⟨_, _, h3, _, _⟩ := build_indexes_good U R
  refine ⟨capAt4_length _, capAt4_length _, ?_, ?_⟩
  · exact capAt4_nodup _ (dedupInto_nodup _
      (getD_nodup _ _ (fun p hp => h3 p hp)))
  · intro hp
    exact capAt4_nodup _ (dedupInto_nodup _ hp)

/-- Witness for the amended C3 on the worked-example bundle. -/
theorem lookup_candidates_spec_witness :
    (lookup_pt_to_em asciiU "casa" (_build_indexes asciiU casaBundle).lexicon_pt
      (_build_indexes asciiU casaBundle).pronoun_pt
      (_build_indexes asciiU casaBundle).spell_vocab_pt).candidates.length ≤ 4 ∧
    (lookup_em_to_pt asciiU "casa" (_build_indexes asciiU casaBundle).lexicon_em
      (_build_indexes asciiU casaBundle).pronoun_em).candidates.length ≤ 4 ∧
    (lookup_em_to_pt asciiU "casa" (_build_indexes asciiU casaBundle).lexicon_em
      (_build_indexes asciiU casaBundle).pronoun_em).candidates.Nodup ∧
    (((dget (_build_indexes asciiU casaBundle).pronoun_pt
        (_normalize_pt asciiU (correct_spelling_pt asciiU "casa"
          (_build_indexes asciiU casaBundle).spell_vocab_pt))).getD []).Nodup →
      (lookup_pt_to_em asciiU "casa"
        (_build_indexes asciiU casaBundle).lexicon_pt
        (_build_indexes asciiU casaBundle).pronoun_pt
        (_build_indexes asciiU casaBundle).spell_vocab_pt).candidates.Nodup) :=
  lookup_candidates_spec asciiU "casa" casaBundle

/-! ### Claim C6: the spelling corrector -/

/-- Running minimum of Levenshtein distances from `norm` to the keys of
`l`, started at `d0` (the shape of the source's best-distance scan). -/
def mfold (norm : String) (l : List (String × String)) (d0 : Nat) : Nat :=
  l.foldl (fun m q => min m (_levenshtein norm q.1)) d0

/-- Minimum Levenshtein distance from `norm` to the keys of a non-empty
vocabulary (`0` for the empty one, which is never consulted). -/
def levMin (norm : String) (l : List (String × String)) : Nat :=
  match l with
  | [] => 0
  | p :: rest => mfold norm rest (_levenshtein norm p.1)

lemma mfold_cons (norm : String) (q : String × String)
    (l : List (String × String)) (d0 : Nat) :
    mfold norm (q :: l) d0 = mfold norm l (min d0 (_levenshtein norm q.1)) :=
  rfl

lemma mfold_le_init (norm : String) (l : List (String × String)) :
    ∀ d0, mfold norm l d0 ≤ d0 := by
  induction l with
  | nil => intro d0; exact Nat.le_refl d0
  | cons q l ih =>
    intro d0
    rw [mfold_cons]
    exact Nat.le_trans (ih _) (Nat.min_le_left _ _)

lemma mfold_attained (norm : String) (l : List (String × String)) :
    ∀ d0, mfold norm l d0 = d0 ∨
      ∃ q ∈ l, _levenshtein norm q.1 = mfold norm l d0 := by
  induction l with
  | nil => intro d0; left; rfl
  | cons q l ih =>
    intro d0
    rw [mfold_cons]
    rcases ih (min d0 (_levenshtein norm q.1)) with h | ⟨r, hr, hd⟩
    · rcases Nat.le_total d0 (_levenshtein norm q.1) with hle | hle
      · left; rw [h]; exact Nat.min_eq_left hle
      · right
        exact ⟨q, List.mem_cons_self q l, by rw [h]; exact (Nat.min_eq_right hle).symm⟩
    · right; exact ⟨r, List.mem_cons_of_mem q hr, hd⟩

lemma find?_congr_on {α : Type} (p q : α → Bool) (l : List α)
    (h : ∀ x ∈ l, p x = q x) : l.find? p = l.find? q := by
  induction l with
  | nil => rfl
  | cons a l ih =>
    rw [List.find?_cons, List.find?_cons, h a (List.mem_cons_self a l)]
    cases hq : q a with
    | true => rfl
    | false => exact ih (fun x hx => h x (List.mem_cons_of_mem a hx))

/-- Behaviour of the best-match scan from a committed accumulator: the
result is the first key strictly improving on `d0` down to the overall
minimum, or the accumulator if nothing improves. -/
lemma bestFold_some_spec (norm : String) :
    ∀ (l : List (String × String)) (k0 : String) (d0 : Nat),
    bestFold norm l (some (k0, d0)) =
      some (match l.find? (fun p => decide (_levenshtein norm p.1 < d0)
              && decide (_levenshtein norm p.1 = mfold norm l d0)) with
            | some p => (p.1, _levenshtein norm p.1)
            | none => (k0, d0)) := by
  intro l
  induction l with
  | nil => intro k0 d0; rfl
  | cons p rest ih =>
    intro k0 d0
    rw [show bestFold norm (p :: rest) (some (k0, d0))
        = bestFold norm rest
            (if _levenshtein norm p.1 < d0
             then some (p.1, _levenshtein norm p.1) else some (k0, d0))
      from rfl]
    rw [mfold_cons]
    by_cases hlt : _levenshtein norm p.1 < d0
    · rw [if_pos hlt, ih]
      have hmin : min d0 (_levenshtein norm p.1) = _levenshtein norm p.1 :=
        Nat.min_eq_right (Nat.le_of_lt hlt)
      rw [hmin, List.find?_cons]
      by_cases heq :
          _levenshtein norm p.1 = mfold norm rest (_levenshtein norm p.1)
      · have hp : (decide (_levenshtein norm p.1 < d0)
            && decide (_levenshtein norm p.1
              = mfold norm rest (_levenshtein norm p.1))) = true := by
          simp only [Bool.and_eq_true, decide_eq_true_eq]
          exact ⟨hlt, heq⟩
        rw [hp]
        have hnone : rest.find?
            (fun q => decide (_levenshtein norm q.1 < _levenshtein norm p.1)
              && decide (_levenshtein norm q.1
                = mfold norm rest (_levenshtein norm p.1))) = none := by
          rw [List.find?_eq_none]
          intro q _
          simp only [Bool.and_eq_true, decide_eq_true_eq, not_and]
          intro h1 h2
          omega
        rw [hnone]
      · have hp : (decide (_levenshtein norm p.1 < d0)
            && decide (_levenshtein norm p.1
              = mfold norm rest (_levenshtein norm p.1))) = false := by
          rw [decide_eq_false heq, Bool.and_false]
        rw [hp]
        have hM : mfold norm rest (_levenshtein norm p.1)
            < _levenshtein norm p.1 :=
          Nat.lt_of_le_of_ne (mfold_le_init norm rest _) (Ne.symm heq)
        have hcongr := find?_congr_on
          (fun q => decide (_levenshtein norm q.1 < _levenshtein norm p.1)
            && decide (_levenshtein norm q.1
              = mfold norm rest (_levenshtein norm p.1)))
          (fun q => decide (_levenshtein norm q.1 < d0)
            && decide (_levenshtein norm q.1
              = mfold norm rest (_levenshtein norm p.1)))
          rest
          (by
            intro x _
            dsimp only
            by_cases hx : _levenshtein norm x.1
                = mfold norm rest (_levenshtein norm p.1)
            · rw [decide_eq_true
                  (show _levenshtein norm x.1 < _levenshtein norm p.1 by omega),
                decide_eq_true (show _levenshtein norm x.1 < d0 by omega)]
            · rw [decide_eq_false hx, Bool.and_false, Bool.and_false])
        rw [hcongr]
        have hex : ∃ q ∈ rest, _levenshtein norm q.1
            = mfold norm rest (_levenshtein norm p.1) := by
          rcases mfold_attained norm rest (_levenshtein norm p.1) with h | h
          · exact absurd h.symm heq
          · exact h
        obtain ⟨q, hq, hqd⟩ := hex
        cases hf : rest.find?
            (fun q => decide (_levenshtein norm q.1 < d0)
              && decide (_levenshtein norm q.1
                = mfold norm rest (_levenshtein norm p.1))) with
        | none =>
          rw [List.find?_eq_none] at hf
          have h3 := hf q hq
          simp only [Bool.and_eq_true, decide_eq_true_eq, not_and] at h3
          exact absurd hqd (h3 (by omega))
        | some r => rfl
    · rw [if_neg hlt, ih]
      have hmin : min d0 (_levenshtein norm p.1) = d0 :=
        Nat.min_eq_left (by omega)
      rw [hmin, List.find?_cons]
      have hp : (decide (_levenshtein norm p.1 < d0)
          && decide (_levenshtein norm p.1 = mfold norm rest d0)) = false := by
        rw [decide_eq_false hlt, Bool.false_and]
      rw [hp]

/-- The complete best-match scan of a non-empty vocabulary returns the
first key attaining the minimum distance, paired with that minimum. -/
lemma bestFold_full_spec (norm : String) (l : List (String × String))
    (hne : l ≠ []) :
    bestFold norm l none =
      some ((((l.find? (fun p =>
          decide (_levenshtein norm p.1 = levMin norm l))).map
            (fun p => p.1)).getD ""), levMin norm l) := by
  cases l with
  | nil => exact absurd rfl hne
  | cons p rest =>
    rw [show bestFold norm (p :: rest) none
        = bestFold norm rest (some (p.1, _levenshtein norm p.1)) from rfl]
    rw [bestFold_some_spec]
    rw [show levMin norm (p :: rest)
        = mfold norm rest (_levenshtein norm p.1) from rfl]
    rw [List.find?_cons]
    by_cases heq :
        _levenshtein norm p.1 = mfold norm rest (_levenshtein norm p.1)
    · rw [decide_eq_true heq]
      have hnone : rest.find?
          (fun q => decide (_levenshtein norm q.1 < _levenshtein norm p.1)
            && decide (_levenshtein norm q.1
              = mfold norm rest (_levenshtein norm p.1))) = none := by
        rw [List.find?_eq_none]
        intro q _
        simp only [Bool.and_eq_true, decide_eq_true_eq, not_and]
        intro h1 h2
        omega
      rw [hnone]
      show some (p.1, _levenshtein norm p.1)
        = some (p.1, mfold norm rest (_levenshtein norm p.1))
      rw [← heq]
    · rw [decide_eq_false heq]
      have hM : mfold norm rest (_levenshtein norm p.1)
          < _levenshtein norm p.1 :=
        Nat.lt_of_le_of_ne (mfold_le_init norm rest _) (Ne.symm heq)
      have hcongr := find?_congr_on
        (fun q => decide (_levenshtein norm q.1 < _levenshtein norm p.1)
          && decide (_levenshtein norm q.1
            = mfold norm rest (_levenshtein norm p.1)))
        (fun q => decide (_levenshtein norm q.1
          = mfold norm rest (_levenshtein norm p.1)))
        rest
        (by
          intro x _
          dsimp only
          by_cases hx : _levenshtein norm x.1
              = mfold norm rest (_levenshtein norm p.1)
          · rw [decide_eq_true
                (show _levenshtein norm x.1 < _levenshtein norm p.1 by omega),
              Bool.true_and]
          · rw [decide_eq_false hx, Bool.and_false])
      rw [hcongr]
      have hex : ∃ q ∈ rest, _levenshtein norm q.1
          = mfold norm rest (_levenshtein norm p.1) := by
        rcases mfold_attained norm rest (_levenshtein norm p.1) with h | h
        · exact absurd h.symm heq
        · exact h
      obtain ⟨q, hq, hqd⟩ := hex
      cases hf : rest.find?
          (fun q => decide (_levenshtein norm q.1
            = mfold norm rest (_levenshtein norm p.1))) with
      | none =>
        rw [List.find?_eq_none] at hf
        exact absurd (by simpa using hqd) (by simpa using hf q hq)
      | some r =>
        have hr : _levenshtein norm r.1
            = mfold norm rest (_levenshtein norm p.1) := by
          have h2 := List.find?_some hf
          simpa using h2
        show some (r.1, _levenshtein norm r.1)
          = some (r.1, mfold norm rest (_levenshtein norm p.1))
        rw [hr]

/-- C6: when the normalized word is not an exact vocabulary key and the
vocabulary is non-empty, the corrector returns the canonical word mapped
from the (first) minimum-distance key exactly when that minimum is at
most 2 (normalized length at most 5) or at most 3 (otherwise), and the
lower-cased original input in all other cases; it never fails. -/
theorem correct_spelling_spec (U : UnicodeModel) (word : String)
    (vocab : List (String × String)) (hne : vocab ≠ [])
    (hmiss : dget vocab (_normalize_pt U word) = none) :
    correct_spelling_pt U word vocab =
      if levMin (_normalize_pt U word) vocab
          ≤ (if (_normalize_pt U word).length ≤ 5 then 2 else 3) then
        pyGet vocab
          (((vocab.find? (fun p =>
            decide (_levenshtein (_normalize_pt U word) p.1
              = levMin (_normalize_pt U word) vocab))).map
                (fun p => p.1)).getD "")
      else pyLowerStr U word := by
  unfold correct_spelling_pt
  simp only [hmiss]
  rw [bestFold_full_spec _ _ hne]

/-- Witness for C6: `"caza"` against the vocabulary `{"casa": "casa"}`
(distance 1, length 4, threshold 2) is corrected to `"casa"`. -/
theorem correct_spelling_spec_witness :
    correct_spelling_pt asciiU "caza" [("casa", "casa")] =
      if levMin (_normalize_pt asciiU "caza") [("casa", "casa")]
          ≤ (if (_normalize_pt asciiU "caza").length ≤ 5 then 2 else 3) then
        pyGet [("casa", "casa")]
          ((([("casa", "casa")].find? (fun p =>
            decide (_levenshtein (_normalize_pt asciiU "caza") p.1
              = levMin (_normalize_pt asciiU "caza") [("casa", "casa")]))).map
                (fun p => p.1)).getD "")
      else pyLowerStr asciiU "caza" :=
  correct_spelling_spec asciiU "caza" [("casa", "casa")]
    (by decide) (by decide)
/-! ### Claim C9: metric properties of the Levenshtein distance -/

lemma lev_nil_left (ys : List Char) : lev [] ys = ys.length := by
  simp [lev]

lemma lev_nil_right (xs : List Char) : lev xs [] = xs.length := by
  cases xs with
  | nil => simp [lev]
  | cons x xs => simp [lev]

lemma lev_cons_cons (x y : Char) (xs ys : List Char) :
    lev (x :: xs) (y :: ys) =
      min (lev xs (y :: ys) + 1)
        (min (lev (x :: xs) ys + 1)
          (lev xs ys + (if x = y then 0 else 1))) := by
  simp [lev]

lemma lev_self (l : List Char) : lev l l = 0 := by
  induction l with
  | nil => simp [lev_nil_left]
  | cons x xs ih =>
    rw [lev_cons_cons, if_pos rfl, ih]
    omega

lemma lev_comm_aux : ∀ n, ∀ a b : List Char,
    a.length + b.length ≤ n → lev a b = lev b a := by
  intro n
  induction n with
  | zero =>
    intro a b h
    have ha : a = [] := List.length_eq_zero.mp (by omega)
    have hb : b = [] := List.length_eq_zero.mp (by omega)
    rw [ha, hb]
  | succ n ih =>
    intro a b h
    cases a with
    | nil => rw [lev_nil_left, lev_nil_right]
    | cons x xs =>
      cases b with
      | nil => rw [lev_nil_left, lev_nil_right]
      | cons y ys =>
        rw [lev_cons_cons, lev_cons_cons]
        have h1 : lev xs (y :: ys) = lev (y :: ys) xs :=
          ih _ _ (by simp at h ⊢; omega)
        have h2 : lev (x :: xs) ys = lev ys (x :: xs) :=
          ih _ _ (by simp at h ⊢; omega)
        have h3 : lev xs ys = lev ys xs := ih _ _ (by simp at h ⊢; omega)
        have h4 : (if x = y then (0 : Nat) else 1)
            = (if y = x then 0 else 1) := by
          by_cases hxy : x = y
          · rw [if_pos hxy, if_pos hxy.symm]
          · rw [if_neg hxy, if_neg (fun h => hxy h.symm)]
        rw [h1, h2, h3, h4]
        omega

lemma lev_comm (a b : List Char) : lev a b = lev b a :=
  lev_comm_aux (a.length + b.length) a b (Nat.le_refl _)

lemma lev_eq_zero_iff : ∀ (a b : List Char), lev a b = 0 ↔ a = b := by
  intro a
  induction a with
  | nil =>
    intro b
    cases b with
    | nil => simp [lev_nil_left]
    | cons y ys => simp [lev_nil_left]
  | cons x xs ih =>
    intro b
    cases b with
    | nil => simp [lev_nil_right]
    | cons y ys =>
      rw [lev_cons_cons]
      constructor
      · intro h
        have h3 : lev xs ys + (if x = y then 0 else 1) = 0 := by omega
        by_cases hxy : x = y
        · rw [if_pos hxy] at h3
          have := (ih ys).mp (by omega)
          rw [hxy, this]
        · rw [if_neg hxy] at h3
          omega
      · intro h
        injection h with h1 h2
        rw [h1, h2, if_pos rfl, lev_self]
        omega

lemma lev_le_sum : ∀ (a c : List Char), lev a c ≤ a.length + c.length := by
  intro a
  induction a with
  | nil => intro c; rw [lev_nil_left]; omega
  | cons x xs ih =>
    intro c
    cases c with
    | nil => rw [lev_nil_right]; omega
    | cons z zs =>
      rw [lev_cons_cons]
      have h1 := ih (z :: zs)
      have hmin : min (lev xs (z :: zs) + 1)
          (min (lev (x :: xs) zs + 1)
            (lev xs zs + (if x = z then 0 else 1)))
          ≤ lev xs (z :: zs) + 1 := Nat.min_le_left _ _
      simp only [List.length_cons] at h1 ⊢
      omega

lemma lev_ge_right : ∀ n, ∀ b c : List Char,
    b.length + c.length ≤ n → c.length ≤ lev b c + b.length := by
  intro n
  induction n with
  | zero =>
    intro b c h
    have hc : c = [] := List.length_eq_zero.mp (by omega)
    rw [hc]
    simp
  | succ n ih =>
    intro b c h
    cases b with
    | nil => rw [lev_nil_left]; omega
    | cons x xs =>
      cases c with
      | nil => simp
      | cons z zs =>
        rw [lev_cons_cons]
        have I1 := ih xs (z :: zs) (by simp at h ⊢; omega)
        have I2 := ih (x :: xs) zs (by simp at h ⊢; omega)
        have I3 := ih xs zs (by simp at h ⊢; omega)
        have hc : (0 : Nat) ≤ (if x = z then 0 else 1) := Nat.zero_le _
        generalize hg : (if x = z then (0 : Nat) else 1) = c0 at *
        simp only [List.length_cons] at *
        omega

lemma lev_ge_left (b c : List Char) : b.length ≤ lev b c + c.length := by
  rw [lev_comm]
  exact lev_ge_right (c.length + b.length) c b (Nat.le_refl _)

lemma cost_triangle (x y z : Char) :
    (if x = z then (0 : Nat) else 1)
      ≤ (if x = y then 0 else 1) + (if y = z then 0 else 1) := by
  by_cases h1 : x = y
  · by_cases h2 : y = z
    · rw [if_pos (h1.trans h2), if_pos h1, if_pos h2]
    · rw [if_neg (fun h => h2 (h1.symm.trans h)), if_pos h1, if_neg h2]
      try omega
  · by_cases h2 : y = z
    · rw [if_neg h1, if_pos h2]
      by_cases h3 : x = z
      · rw [if_pos h3]
        try omega
      · rw [if_neg h3]
        try omega
    · rw [if_neg h1, if_neg h2]
      by_cases h3 : x = z
      · rw [if_pos h3]
        try omega
      · rw [if_neg h3]
        try omega

lemma lev_triangle_aux : ∀ n, ∀ a b c : List Char,
    a.length + b.length + c.length ≤ n →
    lev a c ≤ lev a b + lev b c := by
  intro n
  induction n with
  | zero =>
    intro a b c h
    have ha : a = [] := List.length_eq_zero.mp (by omega)
    have hc : c = [] := List.length_eq_zero.mp (by omega)
    rw [ha, hc]
    simp [lev_nil_left]
  | succ n ih =>
    intro a b c h
    cases b with
    | nil =>
      rw [lev_nil_right, lev_nil_left]
      exact Nat.le_trans (lev_le_sum a c) (by omega)
    | cons y ys =>
      cases a with
      | nil =>
        rw [lev_nil_left, lev_nil_left]
        have := lev_ge_right ((y :: ys).length + c.length) (y :: ys) c
          (Nat.le_refl _)
        omega
      | cons x xs =>
        cases c with
        | nil =>
          rw [lev_nil_right, lev_nil_right]
          have := lev_ge_left (x :: xs) (y :: ys)
          omega
        | cons z zs =>
          have H1 : lev xs (z :: zs)
              ≤ lev xs (y :: ys) + lev (y :: ys) (z :: zs) :=
            ih xs (y :: ys) (z :: zs) (by simp at h ⊢; omega)
          have H2 : lev (x :: xs) zs
              ≤ lev (x :: xs) (y :: ys) + lev (y :: ys) zs :=
            ih (x :: xs) (y :: ys) zs (by simp at h ⊢; omega)
          have H4 : lev (x :: xs) (z :: zs)
              ≤ lev (x :: xs) ys + lev ys (z :: zs) :=
            ih (x :: xs) ys (z :: zs) (by simp at h ⊢; omega)
          have H5 : lev (x :: xs) zs ≤ lev (x :: xs) ys + lev ys zs :=
            ih (x :: xs) ys zs (by simp at h ⊢; omega)
          have H6 : lev xs (z :: zs) ≤ lev xs ys + lev ys (z :: zs) :=
            ih xs ys (z :: zs) (by simp at h ⊢; omega)
          have H7 : lev xs zs ≤ lev xs ys + lev ys zs :=
            ih xs ys zs (by simp at h ⊢; omega)
          have Eac := lev_cons_cons x z xs zs
          have Eab := lev_cons_cons x y xs ys
          have Ebc := lev_cons_cons y z ys zs
          have hct := cost_triangle x y z
          generalize gxy : (if x = y then (0 : Nat) else 1) = cxy at Eab hct
          generalize gyz : (if y = z then (0 : Nat) else 1) = cyz at Ebc hct
          generalize gxz : (if x = z then (0 : Nat) else 1) = cxz at Eac hct
          omega

lemma lev_triangle (a b c : List Char) : lev a c ≤ lev a b + lev b c :=
  lev_triangle_aux (a.length + b.length + c.length) a b c (Nat.le_refl _)
/-- Row of Levenshtein distances from the fixed reversed prefix `r` to
the reversed extensions of `v` by successive elements of the third
argument (the contents of the DP row beyond position `v.length`). -/
def rowTail (r : List Char) : List Char → List Char → List Nat
  | _, [] => []
  | v, cb :: bs => lev r (cb :: v) :: rowTail r (cb :: v) bs

lemma levInner_spec (ca : Char) (r : List Char) :
    ∀ (bs v : List Char),
    levInner ca bs (rowTail r v bs) (lev r v) (lev (ca :: r) v)
      = rowTail (ca :: r) v bs := by
  intro bs
  induction bs with
  | nil => intro v; rfl
  | cons cb bs ih =>
    intro v
    show levInner ca (cb :: bs)
        (lev r (cb :: v) :: rowTail r (cb :: v) bs)
        (lev r v) (lev (ca :: r) v)
      = lev (ca :: r) (cb :: v) :: rowTail (ca :: r) (cb :: v) bs
    rw [show levInner ca (cb :: bs)
        (lev r (cb :: v) :: rowTail r (cb :: v) bs)
        (lev r v) (lev (ca :: r) v)
      = (min (lev r (cb :: v) + 1)
          (min (lev (ca :: r) v + 1)
            (lev r v + (if ca = cb then 0 else 1))))
        :: levInner ca bs (rowTail r (cb :: v) bs) (lev r (cb :: v))
            (min (lev r (cb :: v) + 1)
              (min (lev (ca :: r) v + 1)
                (lev r v + (if ca = cb then 0 else 1))))
      from rfl]
    rw [← lev_cons_cons]
    rw [ih (cb :: v)]

lemma levOuter_spec (b : List Char) :
    ∀ (as_ r : List Char),
    levOuter b as_ (lev r [] :: rowTail r [] b) (r.length + 1)
      = lev (as_.reverse ++ r) [] :: rowTail (as_.reverse ++ r) [] b := by
  intro as_
  induction as_ with
  | nil => intro r; simp [levOuter]
  | cons ca as_ ih =>
    intro r
    rw [show levOuter b (ca :: as_) (lev r [] :: rowTail r [] b)
        (r.length + 1)
      = levOuter b as_
          ((r.length + 1)
            :: levInner ca b (rowTail r [] b) (lev r []) (r.length + 1))
          (r.length + 1 + 1)
      from rfl]
    have e2 : lev (ca :: r) ([] : List Char) = r.length + 1 :=
      lev_nil_right (ca :: r)
    rw [← e2, levInner_spec ca r b []]
    have e3 := ih (ca :: r)
    rw [show (ca :: r).length + 1 = lev (ca :: r) ([] : List Char) + 1 by
      simp [e2]] at e3
    rw [e3, List.reverse_cons, List.append_assoc, List.singleton_append]

lemma rowTail_nil_left : ∀ (bs v : List Char),
    rowTail [] v bs = List.range' (v.length + 1) bs.length := by
  intro bs
  induction bs with
  | nil => intro v; rfl
  | cons cb bs ih =>
    intro v
    show lev [] (cb :: v) :: rowTail [] (cb :: v) bs = _
    rw [lev_nil_left, ih (cb :: v)]
    rfl

lemma initRow (b : List Char) :
    List.range (b.length + 1) = lev [] [] :: rowTail [] [] b := by
  rw [List.range_eq_range', rowTail_nil_left b [], lev_nil_left]
  rfl

lemma rowTail_getLast : ∀ (bs v : List Char) (x d : Nat) (r : List Char),
    (x :: rowTail r v bs).getLastD d
      = if bs = [] then x else lev r (bs.reverse ++ v) := by
  intro bs
  induction bs with
  | nil => intro v x d r; rfl
  | cons cb bs ih =>
    intro v x d r
    show (x :: lev r (cb :: v) :: rowTail r (cb :: v) bs).getLastD d = _
    rw [List.getLastD_cons, ih (cb :: v) (lev r (cb :: v)) x r]
    by_cases hbs : bs = []
    · rw [if_pos hbs, if_neg (by simp), hbs]
      simp
    · rw [if_neg hbs, if_neg (by simp)]
      rw [List.reverse_cons, List.append_assoc, List.singleton_append]

/-- The source DP computes the textbook Levenshtein distance of the
reversed inputs (hence, by symmetry of the recursion, of the inputs). -/
theorem levenshtein_eq_lev (a b : String) :
    _levenshtein a b = lev a.data.reverse b.data.reverse := by
  unfold _levenshtein
  by_cases hab : a = b
  · rw [if_pos hab]
    subst hab
    rw [lev_self]
  · rw [if_neg hab]
    by_cases ha : a.data = []
    · rw [if_pos ha, ha]
      show b.length = lev ([].reverse) b.data.reverse
      rw [List.reverse_nil, lev_nil_left, List.length_reverse]
      rfl
    · rw [if_neg ha]
      by_cases hb : b.data = []
      · rw [if_pos hb, hb]
        show a.length = lev a.data.reverse ([].reverse)
        rw [List.reverse_nil, lev_nil_right, List.length_reverse]
        rfl
      · rw [if_neg hb]
        have hinit : List.range (b.data.length + 1)
            = lev [] [] :: rowTail [] [] b.data := initRow b.data
        rw [hinit]
        have hspec := levOuter_spec b.data a.data []
        simp only [List.length_nil, Nat.zero_add, List.append_nil] at hspec
        rw [hspec]
        rw [rowTail_getLast b.data [] (lev a.data.reverse []) 0 a.data.reverse]
        rw [if_neg hb, List.append_nil]

/-- C9: the implemented Levenshtein distance is symmetric, is zero
exactly on equal strings, and satisfies the triangle inequality. -/
theorem levenshtein_metric (a b c : String) :
    _levenshtein a b = _levenshtein b a ∧
    (_levenshtein a b = 0 ↔ a = b) ∧
    _levenshtein a c ≤ _levenshtein a b + _levenshtein b c := by
  refine ⟨?_, ?_, ?_⟩
  · rw [levenshtein_eq_lev, levenshtein_eq_lev, lev_comm]
  · rw [levenshtein_eq_lev, lev_eq_zero_iff]
    constructor
    · intro h
      rw [List.reverse_inj] at h
      cases a
      cases b
      exact congrArg String.mk h
    · intro h
      rw [h]
  · rw [levenshtein_eq_lev, levenshtein_eq_lev, levenshtein_eq_lev]
    exact lev_triangle _ _ _
